import Mathlib

/-!
# Verification of the audviz real-time analysis engine

A shallow embedding, over exact rationals, of the analysis engine in
`apps/brain/src/analysis/engine.ts` and of the classification dispatcher in
`apps/brain/src/analysis/classifier-client.ts` (shipped here as
`src/unnamed/part_006`).  JavaScript `number`s are modelled as `ℚ`; every
arithmetic step of the source is linear/rational, except where noted
(`Math.sqrt` inside `rms`, `Math.log1p` inside `downsampleSpectrum`), and
those two are handled by abstraction over their (arbitrary) output value,
so every theorem below quantifies over a superset of the real behaviours.

The engine's `processFrame` drives, per PCM frame, in order: the energy /
silence tracker, the section heuristics, spectral-flux push + beat
detection (+ BPM estimation), spectrum emission, and the ~1 Hz
classification (genre smoothing).  Each of those components is embedded
below as a state type plus a step function translated line by line from
the source, and the claims are settled over traces of those steps with the
frame times `t = sampleCounter / sampleRate` the source produces.
-/

/-- Outbound messages (`BrainToVisualizerMessage`) relevant to the claims:
`{silence}`, `{energy}`, `{event:"beat", time, phase:0}`, `{spectrum}`,
`{bpm, confidence}`, `{section}`, `{genre:{top, prob, dist}}`.  The genre
`dist` record is carried as the list of its values in `GENRE_LABELS`
order. -/
inductive Msg where
  | silence (b : Bool)
  | energy (v : ℚ)
  | beat (time : ℚ)
  | spectrum (bins : List ℚ)
  | bpmMsg (bpm conf : ℚ)
  | sectionMsg (label : String)
  | genre (top : String) (prob : ℚ) (dist : List ℚ)
  deriving DecidableEq

/-- Source helper `clamp01(x) = Math.max(0, Math.min(1, x))`. -/
def clamp01 (x : ℚ) : ℚ := max 0 (min 1 x)

/-- Source helper `mean(values)`: `0` on the empty list, else sum/length. -/
def mean (values : List ℚ) : ℚ :=
  if values.length = 0 then 0 else values.sum / values.length

/-- Source helper `variance(values, m)`: mean squared deviation from `m`
(`0` on the empty list). -/
def variance (values : List ℚ) (m : ℚ) : ℚ :=
  if values.length = 0 then 0
  else (values.map (fun v => (v - m) * (v - m))).sum / values.length

theorem clamp01_nonneg (x : ℚ) : 0 ≤ clamp01 x := le_max_left _ _

theorem clamp01_le_one (x : ℚ) : clamp01 x ≤ 1 := by
  unfold clamp01
  rcases le_total (min 1 x) 0 with h | h
  · exact le_trans (max_le (le_refl 0) h) zero_le_one
  · exact max_le (by linarith [min_le_left 1 x]) (min_le_left 1 x)

theorem clamp01_of_mem_Icc {x : ℚ} (h0 : 0 ≤ x) (h1 : x ≤ 1) : clamp01 x = x := by
  unfold clamp01
  rw [min_eq_right h1, max_eq_right h0]

/-! ## Energy estimator and silence debouncing

`processFrame` lines 210–252.  The frame's RMS `e = rms(frame) =
sqrt(Σ s²/n)` is irrational in general, so the step takes the RMS value
itself as input; every nonnegative rational is attained (a constant frame
of value `e ≥ 0` has RMS exactly `e`), and each claim quantifies over all
inputs, so nothing is lost by the abstraction. -/

/-- The engine fields read/written by the energy/silence portion of
`processFrame` (engine.ts lines 86–100 for the initial values). -/
structure EnergyState where
  energyEma : ℚ
  energyFloor : ℚ
  energyCeil : ℚ
  silence : Bool
  silenceSince : ℚ
  lastEnergySentAt : ℚ
  deriving DecidableEq

/-- Field initializers (engine.ts lines 86–100) combined with the resets
in `configure` (lines 142–146); `lastEnergySentAt` keeps its initializer
`0` because `configure` does not touch it. -/
def initEnergyState : EnergyState :=
  { energyEma := 0, energyFloor := 0.002, energyCeil := 0.08,
    silence := true, silenceSince := 0, lastEnergySentAt := 0 }

/-- Lines 230–239 of `processFrame`: the silence flag update at frame
time `t`.  `quiet` is `energyNorm < 0.03`: a quiet frame enters silence
immediately (recording the entry time `t` if the flag was down); a
non-quiet frame leaves silence, emitting `{silence:false}`, exactly when
the flag is up and more than 0.3 s have passed since `since`. -/
def silenceUpdate (sil : Bool) (since t : ℚ) (quiet : Prop) [Decidable quiet] :
    Bool × ℚ × List Msg :=
  if quiet then
    (true, if sil then since else t, [])
  else
    if sil = true ∧ 0.3 < t - since then (false, since, [Msg.silence false])
    else (sil, since, [])

/-- Energy + silence portion of `processFrame` (engine.ts lines 217–252),
at frame time `t`, with `e` the frame's RMS.  Returns the new state, the
emitted messages, the normalized energy, and the `aborted` flag standing
for the early `return` at line 242 (which would skip the rest of
`processFrame`). -/
def energyStep (s : EnergyState) (t e : ℚ) : EnergyState × List Msg × ℚ × Bool :=
  let ema := s.energyEma * (1 - 0.08) + e * 0.08
  let floor := min (s.energyFloor * 0.9995 + e * 0.0005) 0.05
  let ceil := max (s.energyCeil * 0.9995 + e * 0.0005) 0.06
  let energyNorm := clamp01 ((ema - floor) / (ceil - floor))
  let silenceNow := energyNorm < 0.03
  let sil1 := silenceUpdate s.silence s.silenceSince t silenceNow
  let sil := sil1.1
  let since := sil1.2.1
  let msgs1 := sil1.2.2
  -- lines 240–246: the once-only `silence: true` notification, with the
  -- early `return` when the frame is not quiet
  if sil = true ∧ 1.0 < t - since ∧ ¬ silenceNow then
    ({ s with energyEma := ema, energyFloor := floor, energyCeil := ceil,
              silence := sil, silenceSince := since }, msgs1, energyNorm, true)
  else
    let msgs2 :=
      if sil = true ∧ 1.0 < t - since ∧ since ≠ 0 ∧ |t - since - 1.0| < 0.03 then
        msgs1 ++ [Msg.silence true]
      else msgs1
    -- lines 249–252: energy at ~30Hz
    if 1 / 30 ≤ t - s.lastEnergySentAt then
      ({ s with energyEma := ema, energyFloor := floor, energyCeil := ceil,
                silence := sil, silenceSince := since, lastEnergySentAt := t },
       msgs2 ++ [Msg.energy energyNorm], energyNorm, false)
    else
      ({ s with energyEma := ema, energyFloor := floor, energyCeil := ceil,
                silence := sil, silenceSince := since },
       msgs2, energyNorm, false)

/-- Run the energy/silence tracker over a list of `(t, e)` frames,
collecting all emitted messages. -/
def energyRun (s : EnergyState) : List (ℚ × ℚ) → EnergyState × List Msg
  | [] => (s, [])
  | (t, e) :: rest =>
    let out := energyStep s t e
    let next := energyRun out.1 rest
    (next.1, out.2.1 ++ next.2)

/-! ## Section heuristic state machine

`updateSectionHeuristics` and `emitSection` (engine.ts lines 279–337),
called once per frame on the normalized energy. -/

/-- Engine fields used by the section heuristics (initial values from
lines 105–111 as reset by `configure` lines 147–153). -/
structure SectionState where
  shortEnergy : ℚ
  longEnergy : ℚ
  energyDelta : ℚ
  lastSection : Option String
  lastSectionAt : ℚ
  lastDropAt : ℚ
  lastBreakAt : ℚ
  deriving DecidableEq

def initSectionState : SectionState :=
  { shortEnergy := 0, longEnergy := 0, energyDelta := 0,
    lastSection := none, lastSectionAt := -999,
    lastDropAt := -999, lastBreakAt := -999 }

/-- `emitSection` (engine.ts lines 332–337): drop the emission when the
label equals the last emitted one. -/
def emitSection (s : SectionState) (t : ℚ) (label : String) : SectionState × List Msg :=
  if s.lastSection = some label then (s, [])
  else ({ s with lastSection := some label, lastSectionAt := t }, [Msg.sectionMsg label])

/-- `updateSectionHeuristics` (engine.ts lines 279–330). -/
def updateSectionHeuristics (s : SectionState) (t energy : ℚ) : SectionState × List Msg :=
  let prevShort := s.shortEnergy
  let short := s.shortEnergy * (1 - 0.25) + energy * 0.25
  let long := s.longEnergy * (1 - 0.02) + energy * 0.02
  let delta := short - prevShort
  let s1 := { s with shortEnergy := short, longEnergy := long, energyDelta := delta }
  let canEmit := 1.0 < t - s1.lastSectionAt
  let isDrop := canEmit ∧ 2.5 < t - s1.lastDropAt ∧ long < 0.42 ∧ 0.68 < short ∧ 0.08 < delta
  let isBreak := canEmit ∧ 2.5 < t - s1.lastBreakAt ∧ 0.55 < long ∧ short < 0.33 ∧ delta < -0.06
  if isDrop then emitSection { s1 with lastDropAt := t } t "Drop"
  else if isBreak then emitSection { s1 with lastBreakAt := t } t "Break"
  else
    let build := canEmit ∧ long < 0.6 ∧ 0.45 < short ∧ 0.02 < delta ∧ 1.0 < t - s1.lastDropAt
    if build then emitSection s1 t "Build" else (s1, [])

/-- Run the section heuristics over `(t, energy)` frames. -/
def sectionRun (s : SectionState) : List (ℚ × ℚ) → SectionState × List Msg
  | [] => (s, [])
  | (t, energy) :: rest =>
    let out := updateSectionHeuristics s t energy
    let next := sectionRun out.1 rest
    (next.1, out.2 ++ next.2)

/-! ## Spectral flux history, beat detection, BPM estimation

`pushFlux`, `detectBeat`, `updateBpmEstimate` (engine.ts lines 362–432).
The spectral flux itself is computed from FFT magnitudes; the flux value
of each frame enters here as an arbitrary rational input. -/

/-- Engine fields used by beat detection and BPM estimation (initial
values per `configure`, lines 136–144). -/
structure BeatState where
  fluxHistory : List ℚ
  fluxTimes : List ℚ
  lastBeatTime : ℚ
  beatTimes : List ℚ
  bpm : Option ℚ
  bpmConfidence : ℚ
  deriving DecidableEq

def initBeatState : BeatState :=
  { fluxHistory := [], fluxTimes := [], lastBeatTime := -999,
    beatTimes := [], bpm := none, bpmConfidence := 0 }

/-- `pushFlux` (engine.ts lines 362–371): append, then `shift()` (drop the
head) once the history exceeds `maxLen = Math.ceil(8·sampleRate/frameSize)`.
`maxLen` is passed in, already computed from the configuration. -/
def pushFlux (maxLen : ℕ) (s : BeatState) (t flux : ℚ) : BeatState :=
  let fh := s.fluxHistory ++ [flux]
  let ft := s.fluxTimes ++ [t]
  if maxLen < fh.length then { s with fluxHistory := fh.tail, fluxTimes := ft.tail }
  else { s with fluxHistory := fh, fluxTimes := ft }

/-- The adaptive threshold of `detectBeat` (engine.ts lines 377–380):
`lookback = 8`, window `fluxHistory.slice(Math.max(0, n - 1 - lookback), n)`.
`List.drop (n - 9)` is that slice: natural subtraction already truncates
at `0` exactly like the `Math.max(0, ·)`. -/
def beatThreshold (hist : List ℚ) : ℚ :=
  mean (hist.drop (hist.length - 9)) * 2.2

/-- Halving the argument of `Int.ceil` strictly decreases its `toNat` once
the argument exceeds `1`; the termination measure of the two octave-folding
loops below. -/
theorem ceil_toNat_half_lt {c : ℚ} (hc : 1 < c) : ⌈c / 2⌉.toNat < ⌈c⌉.toNat := by
  have h2 : (2 : ℤ) ≤ ⌈c⌉ := by
    have h := Int.le_ceil c
    have : (1 : ℚ) < (⌈c⌉ : ℚ) := lt_of_lt_of_le hc h
    exact_mod_cast this
  have hhalf : ⌈c / 2⌉ ≤ ⌈c⌉ - 1 := by
    rw [Int.ceil_le]
    have h := Int.le_ceil c
    have h2q : (2 : ℚ) ≤ (⌈c⌉ : ℚ) := by exact_mod_cast h2
    push_cast
    linarith
  omega

/-- `while (bpm < 70) bpm *= 2` (engine.ts line 414).  The source reaches
this loop only with `bpm = 60/avg > 0` (line 410 guards `avg <= 0`), and
on that domain the loop terminates; the `0 < b` guard makes the model
total without changing it on the reachable domain. -/
def foldLow (b : ℚ) : ℚ :=
  if h : 0 < b ∧ b < 70 then foldLow (2 * b) else b
termination_by ⌈70 / b⌉.toNat
decreasing_by
  have hb : 0 < b := h.1
  have h70 : (1 : ℚ) < 70 / b := (one_lt_div hb).mpr h.2
  have h2 : (70 : ℚ) / (2 * b) = 70 / b / 2 := by
    rw [div_div]
    ring_nf
  rw [h2]
  exact ceil_toNat_half_lt h70

/-- `while (bpm > 180) bpm /= 2` (engine.ts line 415); terminates for any
positive argument, and the source only reaches it with a positive one. -/
def foldHigh (b : ℚ) : ℚ :=
  if h : 180 < b then foldHigh (b / 2) else b
termination_by ⌈b / 180⌉.toNat
decreasing_by
  have h180 : (1 : ℚ) < b / 180 := (one_lt_div (by norm_num)).mpr h
  have hdiv : b / 2 / 180 = b / 180 / 2 := by ring
  rw [hdiv]
  exact ceil_toNat_half_lt h180

/-- `Math.round(bpm * 10) / 10` (engine.ts line 423); `Math.round` rounds
half-up, which is Mathlib's `round` (`⌊x + 1/2⌋`). -/
def roundTenth (x : ℚ) : ℚ := (round (x * 10) : ℤ) / 10

/-- The consecutive beat intervals of `updateBpmEstimate` (engine.ts lines
405–408): `intervals[i-1] = beatTimes[i] - beatTimes[i-1]`. -/
def intervalsOf (l : List ℚ) : List ℚ := List.zipWith (fun a b => a - b) l.tail l

/-- `updateBpmEstimate` (engine.ts lines 403–432).  `Math.sqrt` of the
interval variance (line 419) is irrational in general, so the model takes
the square-root function as the parameter `sqrtQ` and every theorem holds
for all of them; `refresh` stands for the `Math.random() < 0.1` draw at
line 428 (its value never affects the emitted numbers, only whether an
unchanged estimate is re-sent). -/
def updateBpmEstimate (sqrtQ : ℚ → ℚ) (refresh : Bool) (s : BeatState) :
    BeatState × List Msg :=
  if s.beatTimes.length < 6 then (s, [])
  else
    let intervals := intervalsOf s.beatTimes
    let avg := mean intervals
    if avg ≤ 0 then (s, [])
    else
      let bpmFolded := foldHigh (foldLow (60 / avg))
      let m := mean intervals
      let v := variance intervals m
      let jitter := sqrtQ v
      let confidence := clamp01 (1 - jitter / 0.08)
      let prevBpm := s.bpm
      let newBpm := roundTenth bpmFolded
      let s2 := { s with bpm := some newBpm, bpmConfidence := confidence }
      let doEmit :=
        match prevBpm with
        | none => true
        | some p => if 0.5 < |p - newBpm| then true else refresh
      (s2, if doEmit then [Msg.bpmMsg newBpm confidence] else [])

/-- `detectBeat` (engine.ts lines 373–401): with fewer than 12 flux
samples nothing happens; otherwise the second-newest flux sample must
exceed the adaptive threshold and be a local peak, and the (one frame
lagged) beat timestamp must be at least 220 ms after the previous one.
The `t` argument mirrors the source's (unused) parameter. -/
def detectBeat (sqrtQ : ℚ → ℚ) (refresh : Bool) (s : BeatState) (t : ℚ) :
    BeatState × Bool × List Msg :=
  let n := s.fluxHistory.length
  if n < 12 then (s, false, [])
  else
    let threshold := beatThreshold s.fluxHistory
    let cur := s.fluxHistory.getD (n - 1) 0
    let prev := s.fluxHistory.getD (n - 2) 0
    let prev2 := s.fluxHistory.getD (n - 3) 0
    let peakish := prev2 < prev ∧ cur < prev
    if ¬ (threshold < prev ∧ peakish) then (s, false, [])
    else
      let beatTime := s.fluxTimes.getD (n - 2) 0
      if beatTime - s.lastBeatTime < 0.22 then (s, false, [])
      else
        let bt1 := s.beatTimes ++ [beatTime]
        let bt2 := if 16 < bt1.length then bt1.tail else bt1
        let s1 := { s with lastBeatTime := beatTime, beatTimes := bt2 }
        let r := updateBpmEstimate sqrtQ refresh s1
        (r.1, true, r.2)

/-- The beat-related portion of one `processFrame` call (engine.ts lines
254–260): push the frame's flux, run `detectBeat`, and emit
`{event:"beat", time: t, phase: 0}` when it confirms a beat. -/
def beatFrameStep (sqrtQ : ℚ → ℚ) (maxLen : ℕ) (s : BeatState)
    (t flux : ℚ) (refresh : Bool) : BeatState × List Msg :=
  let s1 := pushFlux maxLen s t flux
  let r := detectBeat sqrtQ refresh s1 t
  (r.1, (if r.2.1 then [Msg.beat t] else []) ++ r.2.2)

/-- Run the beat subsystem over a list of `(t, flux, refresh)` frames. -/
def beatRun (sqrtQ : ℚ → ℚ) (maxLen : ℕ) (s : BeatState) :
    List (ℚ × ℚ × Bool) → BeatState × List Msg
  | [] => (s, [])
  | (t, flux, refresh) :: rest =>
    let out := beatFrameStep sqrtQ maxLen s t flux refresh
    let next := beatRun sqrtQ maxLen out.1 rest
    (next.1, out.2 ++ next.2)

/-! ## Spectrum downsampling and emission

`downsampleSpectrum` (engine.ts lines 434–456) and the ~20Hz spectrum
emission in `processFrame` (lines 263–268).  `Math.log1p` is
transcendental, so the compression map is a parameter `log1p`; every
theorem quantifies over it and therefore covers the real one. -/

/-- `downsampleSpectrum(mag, bins)` (engine.ts lines 434–456):
block-average into `bins` buckets (`start/end = Math.floor` of the
fractional bucket boundaries, out-of-range reads giving `?? 0`), compress
with `log1p(avg)/6`, then divide by `Math.max(...out, 1e-6)` and clamp. -/
def downsampleSpectrum (log1p : ℚ → ℚ) (mag : List ℚ) (bins : ℕ) : List ℚ :=
  let len : ℚ := mag.length
  let step := len / (bins : ℚ)
  let pre := (List.range bins).map (fun (b : ℕ) =>
    let start := ⌊(b : ℚ) * step⌋.toNat
    let stop := ⌊((b : ℚ) + 1) * step⌋.toNat
    let count := stop - start
    let sum := ((List.range count).map (fun i => mag.getD (start + i) 0)).sum
    let avg := if count = 0 then 0 else sum / (count : ℚ)
    log1p avg / 6)
  let mx := pre.foldr max (1e-6 : ℚ)
  pre.map (fun v => clamp01 (v / mx))

/-- Engine fields for the rate-gated spectrum emission. -/
structure SpectrumState where
  lastSpectrumSentAt : ℚ
  lastSpectrumBins : Option (List ℚ)
  deriving DecidableEq

def initSpectrumState : SpectrumState :=
  { lastSpectrumSentAt := 0, lastSpectrumBins := none }

/-- Spectrum portion of `processFrame` (engine.ts lines 263–268):
at most every 1/20 s, downsample the frame's FFT magnitudes into
`cfg.spectrumBins` buckets, remember them and emit them. -/
def spectrumStep (log1p : ℚ → ℚ) (spectrumBins : ℕ) (s : SpectrumState)
    (t : ℚ) (mag : List ℚ) : SpectrumState × List Msg :=
  if 1 / 20 ≤ t - s.lastSpectrumSentAt then
    let bins := downsampleSpectrum log1p mag spectrumBins
    ({ lastSpectrumSentAt := t, lastSpectrumBins := some bins }, [Msg.spectrum bins])
  else (s, [])

/-! ## Genre distribution and smoothing

`computeGenreDist` and `updateGenreState` (engine.ts lines 485–590).
A `Record<string, number>` genre distribution is carried as the list of
its values at the 7 `GENRE_LABELS` keys in order (`dist[g] ?? 0` becomes
`dist.getD i 0`); keys outside the label set are never read by the
engine, so nothing is lost. -/

/-- `GENRE_LABELS` (labels.ts). -/
def GENRE_LABELS : List String :=
  ["Techno", "House", "Drum & Bass", "Trance", "Dubstep", "Hip-Hop", "Ambient"]

/-- `GENRE_LABELS.map((g) => clamp01(dist[g] ?? 0))` (engine.ts line 539). -/
def genreCur (dist : List ℚ) : List ℚ :=
  (List.range GENRE_LABELS.length).map (fun i => clamp01 (dist.getD i 0))

/-- The EMA blend + renormalization of `updateGenreState` (engine.ts lines
538–552), `alpha = 0.25`.  The in-place loop writes indices
`0 ≤ i < cur.length`; in every configured run `genreEma` has exactly that
length (7), which the update preserves. -/
def genreEmaStep (prev : Option (List ℚ)) (cur : List ℚ) : List ℚ :=
  match prev with
  | none => cur
  | some e =>
    let upd := (List.range cur.length).map
      (fun i => e.getD i 0 * (1 - 0.25) + cur.getD i 0 * 0.25)
    let s := upd.sum
    if 1e-6 < s then upd.map (fun x => x / s) else upd

/-- The arg-max scan of `updateGenreState` (engine.ts lines 554–562):
start from index 0, strictly greater probability wins. -/
def scanMax : List ℚ → ℕ → ℕ × ℚ → ℕ × ℚ
  | [], _, acc => acc
  | x :: xs, i, acc => scanMax xs (i + 1) (if acc.2 < x then (i, x) else acc)

def genreArgmax (l : List ℚ) : ℕ × ℚ := scanMax l.tail 1 (0, l.getD 0 0)

/-- Engine fields used by the genre smoother (reset values from
`configure`, engine.ts lines 156–158). -/
structure GenreState where
  genreEma : Option (List ℚ)
  genreTop : String
  lastGenreChangeAt : ℚ
  deriving DecidableEq

def initGenreState : GenreState :=
  { genreEma := none, genreTop := "Techno", lastGenreChangeAt := -999 }

/-- `updateGenreState(t, dist)` (engine.ts lines 537–590), returning the
new state together with the emitted `{genre: {top, prob, dist}}` payload
(`emitClassification` sends exactly this return value, line 476).
`List.indexOf` returns the length when the label is missing, and the
definition routes that case exactly where the source routes `-1`. -/
def updateGenreState (s : GenreState) (t : ℚ) (dist : List ℚ) : GenreState × Msg :=
  let ema := genreEmaStep s.genreEma (genreCur dist)
  let am := genreArgmax ema
  let topIdx := am.1
  let topProb := am.2
  let proposedTop := GENRE_LABELS.getD topIdx "Techno"
  let curIdx := GENRE_LABELS.indexOf s.genreTop
  let curProb := if curIdx < GENRE_LABELS.length then ema.getD curIdx 0 else 0
  let timeSinceChange := t - s.lastGenreChangeAt
  let shouldHold := proposedTop ≠ s.genreTop ∧ timeSinceChange < 15 ∧
    0.55 < curProb ∧ topProb < curProb + 0.12
  let replace := ¬ shouldHold ∧ proposedTop ≠ s.genreTop
  let top2 := if replace then proposedTop else s.genreTop
  let lastChange2 := if replace then t else s.lastGenreChangeAt
  let finalIdx := GENRE_LABELS.indexOf top2
  let finalProb := (ema.get? finalIdx).getD topProb
  let outDist := (List.range GENRE_LABELS.length).map (fun i => clamp01 (ema.getD i 0))
  ({ genreEma := some ema, genreTop := top2, lastGenreChangeAt := lastChange2 },
   Msg.genre top2 (clamp01 finalProb) outDist)

/-- Run the genre smoother over the (≈1 Hz) classification instants
`(t, dist)`; one `{genre}` message is emitted per call. -/
def genreRun (s : GenreState) : List (ℚ × List ℚ) → GenreState × List Msg
  | [] => (s, [])
  | (t, dist) :: rest =>
    let out := genreRun (updateGenreState s t dist).1 rest
    (out.1, (updateGenreState s t dist).2 :: out.2)

/-- `computeGenreDist` (engine.ts lines 485–535), flattened per label: the
`if/else if` chain on the clamped BPM is reproduced inside each label's
score (identical guards, in the same order), then every score goes through
`Math.max(1e-4, ·)`, and the vector is normalized and clamped.  The result
list is in `GENRE_LABELS` order. -/
def computeGenreDist (bpm0 energy0 bass0 mid0 treble0 : ℚ) : List ℚ :=
  let bpm := max 60 (min 190 bpm0)
  let energy := clamp01 energy0
  let bass := clamp01 bass0
  let mid := clamp01 mid0
  let treble := clamp01 treble0
  let techno := 0.25 +
    (if 155 ≤ bpm then 0.15 * energy
     else if 135 ≤ bpm then 0.75 * (0.35 + 0.65 * energy) * (0.5 + 0.5 * bass)
     else if 115 ≤ bpm then 0.35 * (0.25 + 0.75 * energy)
     else 0)
  let house := 0.25 +
    (if 155 ≤ bpm then 0
     else if 135 ≤ bpm then 0
     else if 115 ≤ bpm then 0.85 * (0.35 + 0.65 * energy) * (0.4 + 0.6 * mid)
     else 0)
  let dnb := 0.12 +
    (if 155 ≤ bpm then 1.1 * (0.4 + 0.6 * energy) * (0.6 + 0.4 * treble) else 0)
  let trance := 0.12 +
    (if 155 ≤ bpm then 0
     else if 135 ≤ bpm then 0.55 * (0.3 + 0.7 * energy) * (0.55 + 0.45 * treble)
     else 0)
  let dubstep := 0.12 +
    (if 155 ≤ bpm then 0
     else if 135 ≤ bpm then
       0.6 * (0.25 + 0.75 * energy) * (0.65 + 0.35 * bass) * (0.75 - 0.35 * treble)
     else 0)
  let hiphop := 0.12 +
    (if 155 ≤ bpm then 0
     else if 135 ≤ bpm then 0
     else if 115 ≤ bpm then 0
     else 0.95 * (0.3 + 0.7 * bass) * (0.35 + 0.65 * energy))
  let ambient := 0.12 +
    (if 155 ≤ bpm then 0
     else if 135 ≤ bpm then 0
     else if 115 ≤ bpm then 0
     else 0.35 * (1 - energy) * (0.6 + 0.4 * (1 - treble))) +
    (if energy < 0.35 then (0.35 - energy) * 2.2 else 0)
  let vec := [techno, house, dnb, trance, dubstep, hiphop, ambient].map
    (fun v => max 1e-4 v)
  let sum := vec.sum
  vec.map (fun v => clamp01 (v / sum))

/-! ## Classification dispatcher (`AudioClassifierClient`, part_006)

The single-in-flight scheduling of `maybeClassify` (lines 144–167) and the
worker callbacks installed by `spawnWorker` (lines 180–204).  The constants
`CLASSIFIER_SAMPLE_RATE` and `CLASSIFIER_WINDOW_SAMPLES` live in
`classifier-config.ts`, which is not part of the provided sources, so ring
capacity and window length are parameters (`cap`, `window`); nothing below
depends on their values. -/

/-- Dispatcher fields: `worker` aliveness, the in-flight guard, the time
of the last handoff (`none` models the initial `-Infinity`), the ring's
fill level (`FloatRingBuffer.used`), and the request counter. -/
structure ClientState where
  workerAlive : Bool
  inFlight : Bool
  lastSentAt : Option ℚ
  ringUsed : ℕ
  requestId : ℕ
  deriving DecidableEq

def initClientState : ClientState :=
  { workerAlive := true, inFlight := false, lastSentAt := none,
    ringUsed := 0, requestId := 0 }

/-- The events that touch the dispatcher state: a PCM push of `n`
resampled samples, a `maybeClassify(t, ctx)` call, and the worker's
`result` / `error` / `exit` callbacks. -/
inductive ClientEvent where
  | push (n : ℕ)
  | classify (t : ℚ)
  | result
  | workerError
  | exit
  deriving DecidableEq

/-- A `worker.postMessage` handoff (part_006 lines 153–166). -/
structure SentRequest where
  id : ℕ
  timeSec : ℚ
  deriving DecidableEq

/-- The tail of `maybeClassify` after the worker/in-flight/rate guards
(part_006 lines 148–166): ring must hold a full window, `readLatest`
returns `min(used, n)` samples and the handoff requires exactly `window`
of them. -/
def clientSend (window : ℕ) (s : ClientState) (t : ℚ) : ClientState × List SentRequest :=
  if s.ringUsed < window then (s, [])
  else if min s.ringUsed window ≠ window then (s, [])
  else
    ({ s with requestId := s.requestId + 1, inFlight := true, lastSentAt := some t },
     [{ id := s.requestId + 1, timeSec := t }])

/-- One dispatcher transition (part_006: `pushPcmFrame` lines 139–142 for
the ring size, `maybeClassify` lines 144–167, the `spawnWorker` callbacks
lines 180–204). -/
def clientStep (cap window : ℕ) (s : ClientState) : ClientEvent → ClientState × List SentRequest
  | .push n => ({ s with ringUsed := min cap (s.ringUsed + n) }, [])
  | .classify t =>
    if ¬ s.workerAlive then (s, [])
    else if s.inFlight then (s, [])
    else
      match s.lastSentAt with
      | some x => if t - x < 1.0 then (s, []) else clientSend window s t
      | none => clientSend window s t
  | .result => ({ s with inFlight := false }, [])
  | .workerError => ({ s with inFlight := false }, [])
  | .exit => ({ s with inFlight := false, workerAlive := false }, [])

/-- Run the dispatcher over an event trace, tracking the number of
outstanding requests (`o`): a handoff adds one, a worker `result`,
`error` or `exit` callback completes (or cancels) whatever request might
be pending. -/
def clientRun (cap window : ℕ) (s : ClientState) (o : ℕ) :
    List ClientEvent → ClientState × ℕ × List SentRequest
  | [] => (s, o, [])
  | ev :: rest =>
    let r := clientStep cap window s ev
    let o2 := match ev with
      | .result => 0
      | .workerError => 0
      | .exit => 0
      | .classify _ => o + r.2.length
      | .push _ => o
    let next := clientRun cap window r.1 o2 rest
    (next.1, next.2.1, r.2 ++ next.2.2)

/-! ## Supporting lemmas -/

/-- Every branch of `energyStep` stores the freshly capped floor and
ceiling, so the bounds forced by the `min`/`max` caps hold after any
frame whatever its state and inputs. -/
theorem energyStep_floor_ceil (s : EnergyState) (t e : ℚ) :
    (energyStep s t e).1.energyFloor ≤ 0.05 ∧ 0.06 ≤ (energyStep s t e).1.energyCeil := by
  unfold energyStep
  dsimp only
  split_ifs <;>
    exact ⟨min_le_right _ _, le_max_right _ _⟩

theorem energyRun_floor_ceil (inputs : List (ℚ × ℚ)) :
    ∀ s : EnergyState, s.energyFloor ≤ 0.05 → 0.06 ≤ s.energyCeil →
      (energyRun s inputs).1.energyFloor ≤ 0.05 ∧
      0.06 ≤ (energyRun s inputs).1.energyCeil := by
  induction inputs with
  | nil => intro s h1 h2; exact ⟨h1, h2⟩
  | cons p rest ih =>
    intro s h1 h2
    obtain ⟨t, e⟩ := p
    have hs := energyStep_floor_ceil s t e
    simpa [energyRun] using ih (energyStep s t e).1 hs.1 hs.2

/-- The silence block emits at most a `{silence:false}` message. -/
theorem silenceUpdate_msgs_sub (sil : Bool) (since t : ℚ) (q : Prop) [Decidable q] :
    ∀ m ∈ (silenceUpdate sil since t q).2.2, m = Msg.silence false := by
  unfold silenceUpdate
  split_ifs <;> simp_all

/-- `{silence:false}` is emitted by the silence block exactly on a
non-quiet frame with the flag up and `> 0.3 s` since the entry time. -/
theorem silenceUpdate_mem_false_iff (sil : Bool) (since t : ℚ) (q : Prop) [Decidable q] :
    (Msg.silence false ∈ (silenceUpdate sil since t q).2.2 ↔
      ¬ q ∧ sil = true ∧ 0.3 < t - since) := by
  unfold silenceUpdate
  split_ifs <;> simp_all

/-- While the flag is up, the recorded silence entry time never moves. -/
theorem silenceUpdate_since_of_sil (since t : ℚ) (q : Prop) [Decidable q] :
    (silenceUpdate true since t q).2.1 = since := by
  unfold silenceUpdate
  split_ifs <;> simp_all

/-- The normalized energy returned by `energyStep` is the `clamp01` of the
normalization quotient, whatever branch was taken. -/
theorem energyStep_norm_bounds (s : EnergyState) (t e : ℚ) :
    0 ≤ (energyStep s t e).2.2.1 ∧ (energyStep s t e).2.2.1 ≤ 1 := by
  unfold energyStep
  dsimp only
  split_ifs <;> exact ⟨clamp01_nonneg _, clamp01_le_one _⟩

/-- Every message of one energy/silence frame is a silence toggle or the
frame's normalized energy. -/
theorem energyStep_msg_cases (s : EnergyState) (t e : ℚ) :
    ∀ m ∈ (energyStep s t e).2.1,
      m = Msg.silence false ∨ m = Msg.silence true ∨
      m = Msg.energy ((energyStep s t e).2.2.1) := by
  unfold energyStep
  dsimp only
  intro m hm
  split_ifs at hm ⊢ <;>
    first
      | (exact Or.inl (silenceUpdate_msgs_sub _ _ _ _ m hm))
      | (rcases List.mem_append.mp hm with hm1 | hm1
         · rcases List.mem_append.mp hm1 with hm2 | hm2
           · exact Or.inl (silenceUpdate_msgs_sub _ _ _ _ m hm2)
           · simp_all
         · simp_all)
      | (rcases List.mem_append.mp hm with hm1 | hm1
         · exact Or.inl (silenceUpdate_msgs_sub _ _ _ _ m hm1)
         · simp_all)

/-- `{silence:false}` leaves `energyStep` exactly on a non-quiet frame
(normalized energy ≥ 0.03) with the flag up and `> 0.3 s` since the
recorded silence entry. -/
theorem energyStep_silence_false_iff (s : EnergyState) (t e : ℚ) :
    (Msg.silence false ∈ (energyStep s t e).2.1 ↔
      ¬ ((energyStep s t e).2.2.1 < 0.03) ∧ s.silence = true ∧
        0.3 < t - s.silenceSince) := by
  unfold energyStep
  dsimp only
  split_ifs with h1 h2 h3 h2 h3 <;>
    rw [← silenceUpdate_mem_false_iff s.silence s.silenceSince t] <;>
    simp_all

/-- Claim C10: after initialization and after every processed frame, the adaptive
energy floor is at most 0.05 and the adaptive ceiling at least 0.06, so
the normalization denominator `ceiling - floor` is at least 0.01 and the
normalized-energy division is never by zero or by a negative quantity. -/
theorem c10_adaptive_floor_ceiling_bounds (inputs : List (ℚ × ℚ)) :
    (initEnergyState.energyFloor ≤ 0.05 ∧ 0.06 ≤ initEnergyState.energyCeil ∧
      0.01 ≤ initEnergyState.energyCeil - initEnergyState.energyFloor) ∧
    ((energyRun initEnergyState inputs).1.energyFloor ≤ 0.05 ∧
      0.06 ≤ (energyRun initEnergyState inputs).1.energyCeil ∧
      0.01 ≤ (energyRun initEnergyState inputs).1.energyCeil -
        (energyRun initEnergyState inputs).1.energyFloor) := by
  have h0f : initEnergyState.energyFloor ≤ 0.05 := by norm_num [initEnergyState]
  have h0c : (0.06 : ℚ) ≤ initEnergyState.energyCeil := by norm_num [initEnergyState]
  have h := energyRun_floor_ceil inputs initEnergyState h0f h0c
  refine ⟨⟨h0f, h0c, by norm_num [initEnergyState]⟩, h.1, h.2, by linarith [h.1, h.2]⟩

theorem downsampleSpectrum_length (log1p : ℚ → ℚ) (mag : List ℚ) (bins : ℕ) :
    (downsampleSpectrum log1p mag bins).length = bins := by
  unfold downsampleSpectrum
  dsimp only
  rw [List.length_map, List.length_map, List.length_range]

theorem downsampleSpectrum_mem_Icc (log1p : ℚ → ℚ) (mag : List ℚ) (bins : ℕ) :
    ∀ v ∈ downsampleSpectrum log1p mag bins, 0 ≤ v ∧ v ≤ 1 := by
  intro v hv
  simp only [downsampleSpectrum, List.mem_map] at hv
  obtain ⟨x, _, rfl⟩ := hv
  exact ⟨clamp01_nonneg _, clamp01_le_one _⟩

/-- Claim C9: every emitted energy value and every element of every emitted
spectrum array lies in [0,1], and every emitted spectrum array has length
equal to the configured spectrum bin count, for every configured engine
state and frame input. -/
theorem c9_energy_spectrum_ranges :
    (∀ (s : EnergyState) (t e v : ℚ),
      Msg.energy v ∈ (energyStep s t e).2.1 → 0 ≤ v ∧ v ≤ 1) ∧
    (∀ (log1p : ℚ → ℚ) (spectrumBins : ℕ) (s : SpectrumState) (t : ℚ)
       (mag : List ℚ) (bs : List ℚ),
      Msg.spectrum bs ∈ (spectrumStep log1p spectrumBins s t mag).2 →
      bs.length = spectrumBins ∧ ∀ v ∈ bs, 0 ≤ v ∧ v ≤ 1) := by
  constructor
  · intro s t e v h
    rcases energyStep_msg_cases s t e _ h with h1 | h1 | h1
    · exact absurd h1 (by simp)
    · exact absurd h1 (by simp)
    · obtain rfl : v = (energyStep s t e).2.2.1 := by
        injection h1
      exact energyStep_norm_bounds s t e
  · intro log1p spectrumBins s t mag bs h
    simp only [spectrumStep] at h
    split_ifs at h <;> simp_all
    exact ⟨downsampleSpectrum_length log1p mag spectrumBins,
      downsampleSpectrum_mem_Icc log1p mag spectrumBins⟩

/-- The section labels carried by a message stream, in emission order. -/
def sectionLabels (msgs : List Msg) : List String :=
  msgs.filterMap (fun m => match m with | Msg.sectionMsg l => some l | _ => none)

/-- One frame of the section heuristics either emits nothing and keeps
`lastSection`, or emits exactly one label that differs from the held one
and becomes the new `lastSection`. -/
theorem updateSectionHeuristics_cases (s : SectionState) (t energy : ℚ) :
    ((updateSectionHeuristics s t energy).2 = [] ∧
      (updateSectionHeuristics s t energy).1.lastSection = s.lastSection) ∨
    (∃ lab, (updateSectionHeuristics s t energy).2 = [Msg.sectionMsg lab] ∧
      (updateSectionHeuristics s t energy).1.lastSection = some lab ∧
      s.lastSection ≠ some lab) := by
  simp only [updateSectionHeuristics, emitSection]
  split_ifs with h1 h2 h3 h4 h5 h6 <;> simp_all

theorem sectionRun_chain : ∀ (inputs : List (ℚ × ℚ)) (s : SectionState),
    List.Chain' (· ≠ ·) (sectionLabels (sectionRun s inputs).2) ∧
    (∀ l, (sectionLabels (sectionRun s inputs).2).head? = some l →
      s.lastSection ≠ some l) := by
  intro inputs
  induction inputs with
  | nil => intro s; simp [sectionRun, sectionLabels]
  | cons p rest ih =>
    intro s
    obtain ⟨t, energy⟩ := p
    have hrun : sectionRun s ((t, energy) :: rest) =
        ((sectionRun (updateSectionHeuristics s t energy).1 rest).1,
          (updateSectionHeuristics s t energy).2 ++
            (sectionRun (updateSectionHeuristics s t energy).1 rest).2) := rfl
    rw [hrun]
    rcases updateSectionHeuristics_cases s t energy with ⟨hm, hl⟩ | ⟨lab, hm, hl, hne⟩
    · have := ih (updateSectionHeuristics s t energy).1
      rw [hl] at this
      simpa [sectionLabels, hm] using this
    · have := ih (updateSectionHeuristics s t energy).1
      rw [hl] at this
      constructor
      · simp only [sectionLabels, List.filterMap_append, hm,
          List.filterMap_cons, List.filterMap_nil, List.singleton_append]
        rw [List.chain'_cons']
        refine ⟨?_, ?_⟩
        · intro y hy
          have := this.2 y
          simp only [sectionLabels] at this
          have hne2 := this hy
          intro hcontra
          exact hne2 (by rw [hcontra])
        · exact this.1
      · intro l hd
        simp only [sectionLabels, List.filterMap_append, hm] at hd
        simp only [List.filterMap_cons, List.filterMap_nil] at hd
        have : lab = l := by
          simpa using hd
        rw [← this]
        exact hne

/-- Claim C8: within one configured session no two consecutive section
messages carry the same label — a label equal to the held last-emitted
one is never emitted again until a different label intervenes. -/
theorem c8_no_consecutive_duplicate_sections (inputs : List (ℚ × ℚ)) :
    List.Chain' (· ≠ ·) (sectionLabels (sectionRun initSectionState inputs).2) :=
  (sectionRun_chain inputs initSectionState).1

/-- Claim C1 (amended): with at least 12 flux samples the adaptive onset
threshold equals 2.2 times the mean of the last NINE flux samples (the
`slice(n - 1 - 8, n)` window spans indices `n-9 … n-1`, including the
newest sample), and no beat candidate is evaluated with fewer than 12
flux samples (`detectBeat` then returns immediately, unchanged).
`List.rtake 9` is Mathlib's "last nine elements". -/
theorem c1_threshold_uses_last_nine_samples :
    (∀ hist : List ℚ, 12 ≤ hist.length →
      beatThreshold hist = mean (hist.rtake 9) * 2.2 ∧ (hist.rtake 9).length = 9) ∧
    (∀ (sqrtQ : ℚ → ℚ) (refresh : Bool) (s : BeatState) (t : ℚ),
      s.fluxHistory.length < 12 → detectBeat sqrtQ refresh s t = (s, false, [])) := by
  constructor
  · intro hist hlen
    constructor
    · rfl
    · simp only [List.rtake, List.length_drop]
      omega
  · intro sqrtQ refresh s t h
    simp [detectBeat, h]

/-- Counterexample to claim C1 as stated: a 12-sample flux history on
which the threshold actually used differs from 2.2 times the mean of the
last EIGHT samples (the spike at index 3 is inside the 9-sample window
the code averages, but outside the last 8). -/
theorem c1_counterexample_eight_sample_mean :
    12 ≤ ([0, 0, 0, 9, 0, 0, 0, 0, 0, 0, 0, 0] : List ℚ).length ∧
    beatThreshold [0, 0, 0, 9, 0, 0, 0, 0, 0, 0, 0, 0] ≠
      mean (([0, 0, 0, 9, 0, 0, 0, 0, 0, 0, 0, 0] : List ℚ).rtake 8) * 2.2 := by
  constructor
  · simp
  · have h9 : ([0, 0, 0, 9, 0, 0, 0, 0, 0, 0, 0, 0] : List ℚ).drop
        (([0, 0, 0, 9, 0, 0, 0, 0, 0, 0, 0, 0] : List ℚ).length - 9) =
        [9, 0, 0, 0, 0, 0, 0, 0, 0] := rfl
    have h8 : ([0, 0, 0, 9, 0, 0, 0, 0, 0, 0, 0, 0] : List ℚ).rtake 8 =
        [0, 0, 0, 0, 0, 0, 0, 0] := rfl
    rw [beatThreshold, h9, h8]
    norm_num [mean]

theorem c1_witness :
    (beatThreshold [0, 0, 0, 9, 0, 0, 0, 0, 0, 0, 0, 0] =
      mean (([0, 0, 0, 9, 0, 0, 0, 0, 0, 0, 0, 0] : List ℚ).rtake 9) * 2.2) ∧
    ((([0, 0, 0, 9, 0, 0, 0, 0, 0, 0, 0, 0] : List ℚ).rtake 9).length = 9) ∧
    detectBeat (fun _ => 0) false initBeatState 0 = (initBeatState, false, []) :=
  ⟨(c1_threshold_uses_last_nine_samples.1 _ (by simp)).1,
   (c1_threshold_uses_last_nine_samples.1 _ (by simp)).2,
   c1_threshold_uses_last_nine_samples.2 (fun _ => 0) false initBeatState 0
     (by simp [initBeatState])⟩

/-- Claim C2 (amended): the silence flag toggles from true to false (and a
`silence:false` message is emitted) on exactly the non-quiet frames
(normalized energy ≥ 0.03) at which more than 0.3 s have elapsed since
`silenceSince` — the time at which the engine last ENTERED silence, which
stays fixed while the flag is set.  A single non-quiet frame is therefore
sufficient once that much time has passed since silence began; 0.3 s of
continuous non-quiet input is not required. -/
theorem c2_silence_exit_measured_from_entry :
    (∀ (s : EnergyState) (t e : ℚ),
      Msg.silence false ∈ (energyStep s t e).2.1 →
        s.silence = true ∧ 0.3 < t - s.silenceSince ∧
        ¬ ((energyStep s t e).2.2.1 < 0.03)) ∧
    (∀ (s : EnergyState) (t e : ℚ),
      s.silence = true → 0.3 < t - s.silenceSince →
      ¬ ((energyStep s t e).2.2.1 < 0.03) →
        Msg.silence false ∈ (energyStep s t e).2.1) ∧
    (∀ (s : EnergyState) (t e : ℚ), s.silence = true →
      (energyStep s t e).1.silenceSince = s.silenceSince) := by
  refine ⟨?_, ?_, ?_⟩
  · intro s t e h
    have hiff := (energyStep_silence_false_iff s t e).mp h
    exact ⟨hiff.2.1, hiff.2.2, hiff.1⟩
  · intro s t e hsil htime hnorm
    exact (energyStep_silence_false_iff s t e).mpr ⟨hnorm, hsil, htime⟩
  · intro s t e hsil
    unfold energyStep
    dsimp only
    rw [hsil]
    split_ifs <;> exact silenceUpdate_since_of_sil s.silenceSince t _

/-- Counterexample to claim C2 as stated: starting from the configured
state, four quiet frames 0.1 s apart followed by ONE non-quiet frame at
`t = 0.4` toggle the silence flag to false and emit `{silence:false}` —
the flag flips on a single non-quiet frame (the previous frame, at
`t = 0.3`, was still quiet and no `silence:false` was emitted up to it),
because the 0.3 s are measured from the silence entry time, not from the
start of a continuous non-quiet stretch. -/
theorem c2_counterexample_single_loud_frame :
    (Msg.silence false ∈
      (energyStep (energyRun initEnergyState
        [(0, 0), (1/10, 0), (2/10, 0), (3/10, 0)]).1 (4/10) 1).2.1) ∧
    ((energyStep (energyRun initEnergyState
        [(0, 0), (1/10, 0), (2/10, 0)]).1 (3/10) 0).2.2.1 < 0.03) ∧
    (Msg.silence false ∉ (energyRun initEnergyState
        [(0, 0), (1/10, 0), (2/10, 0), (3/10, 0)]).2) ∧
    ((4/10 : ℚ) - 3/10 < 0.3) := by
  refine ⟨?_, ?_, ?_, ?_⟩
  · norm_num [energyRun, energyStep, silenceUpdate, clamp01, initEnergyState,
      min_def, max_def, abs]
    try simp
  · norm_num [energyRun, energyStep, silenceUpdate, clamp01, initEnergyState,
      min_def, max_def, abs]
  · norm_num [energyRun, energyStep, silenceUpdate, clamp01, initEnergyState,
      min_def, max_def, abs]
    try simp
  · norm_num

theorem c2_witness : Msg.silence false ∈ (energyStep initEnergyState 1 1).2.1 :=
  c2_silence_exit_measured_from_entry.2.1 initEnergyState 1 1 rfl
    (by norm_num [initEnergyState])
    (by norm_num [energyStep, silenceUpdate, clamp01, initEnergyState,
      min_def, max_def])

theorem c9_witness :
    (((0:ℚ) ≤ 77501/77961) ∧ ((77501/77961 : ℚ) ≤ 1)) ∧
    (([0] : List ℚ).length = 1 ∧ ∀ v ∈ ([0] : List ℚ), 0 ≤ v ∧ v ≤ 1) :=
  ⟨c9_energy_spectrum_ranges.1 initEnergyState 1 1 (77501/77961)
      (by norm_num [energyStep, silenceUpdate, clamp01, initEnergyState,
        min_def, max_def, Msg.energy.injEq]),
   c9_energy_spectrum_ranges.2 id 1 initSpectrumState 1 [] [0]
      (by norm_num [spectrumStep, downsampleSpectrum, clamp01, initSpectrumState,
        min_def, max_def, List.range_succ])⟩

/-- Doubling while below 70 always lands at or above 70 (for the positive
inputs the source can produce). -/
theorem foldLow_ge : ∀ (b : ℚ), 0 < b → 70 ≤ foldLow b := by
  have key : ∀ (n : ℕ) (b : ℚ), ⌈70 / b⌉.toNat ≤ n → 0 < b → 70 ≤ foldLow b := by
    intro n
    induction n with
    | zero =>
      intro b hn hb
      rw [foldLow]
      split_ifs with h
      · exfalso
        have h70 : (1 : ℚ) < 70 / b := (one_lt_div hb).mpr h.2
        have : (1 : ℤ) < ⌈(70 : ℚ) / b⌉ := by
          have hle := Int.le_ceil ((70 : ℚ) / b)
          exact_mod_cast lt_of_lt_of_le h70 hle
        omega
      · push_neg at h
        exact h hb
    | succ n ih =>
      intro b hn hb
      rw [foldLow]
      split_ifs with h
      · refine ih (2 * b) ?_ (by positivity)
        have hdec : ⌈(70 : ℚ) / (2 * b)⌉.toNat < ⌈(70 : ℚ) / b⌉.toNat := by
          have h70 : (1 : ℚ) < 70 / b := (one_lt_div hb).mpr h.2
          have h2 : (70 : ℚ) / (2 * b) = 70 / b / 2 := by
            rw [div_div]
            ring_nf
          rw [h2]
          exact ceil_toNat_half_lt h70
        omega
      · push_neg at h
        exact h hb
  intro b hb
  exact key ⌈70 / b⌉.toNat b le_rfl hb

/-- Halving while above 180 always terminates at or below 180. -/
theorem foldHigh_le : ∀ (b : ℚ), foldHigh b ≤ 180 := by
  have key : ∀ (n : ℕ) (b : ℚ), ⌈b / 180⌉.toNat ≤ n → foldHigh b ≤ 180 := by
    intro n
    induction n with
    | zero =>
      intro b hn
      rw [foldHigh]
      split_ifs with h
      · exfalso
        have h1 : (1 : ℚ) < b / 180 := (one_lt_div (by norm_num)).mpr h
        have : (1 : ℤ) < ⌈b / 180⌉ := by
          have hle := Int.le_ceil (b / 180)
          exact_mod_cast lt_of_lt_of_le h1 hle
        omega
      · linarith [not_lt.mp h]
    | succ n ih =>
      intro b hn
      rw [foldHigh]
      split_ifs with h
      · refine ih (b / 2) ?_
        have hdec : ⌈b / 2 / 180⌉.toNat < ⌈b / 180⌉.toNat := by
          have h1 : (1 : ℚ) < b / 180 := (one_lt_div (by norm_num)).mpr h
          have h2 : b / 2 / 180 = b / 180 / 2 := by ring
          rw [h2]
          exact ceil_toNat_half_lt h1
        omega
      · linarith [not_lt.mp h]
  intro b
  exact key ⌈b / 180⌉.toNat b le_rfl

/-- Halving while above 180 never drops below 70 when starting at or
above 70. -/
theorem foldHigh_ge : ∀ (b : ℚ), 70 ≤ b → 70 ≤ foldHigh b := by
  have key : ∀ (n : ℕ) (b : ℚ), ⌈b / 180⌉.toNat ≤ n → 70 ≤ b → 70 ≤ foldHigh b := by
    intro n
    induction n with
    | zero =>
      intro b hn hb
      rw [foldHigh]
      split_ifs with h
      · exfalso
        have h1 : (1 : ℚ) < b / 180 := (one_lt_div (by norm_num)).mpr h
        have : (1 : ℤ) < ⌈b / 180⌉ := by
          have hle := Int.le_ceil (b / 180)
          exact_mod_cast lt_of_lt_of_le h1 hle
        omega
      · exact hb
    | succ n ih =>
      intro b hn hb
      rw [foldHigh]
      split_ifs with h
      · refine ih (b / 2) ?_ (by linarith)
        have hdec : ⌈b / 2 / 180⌉.toNat < ⌈b / 180⌉.toNat := by
          have h1 : (1 : ℚ) < b / 180 := (one_lt_div (by norm_num)).mpr h
          have h2 : b / 2 / 180 = b / 180 / 2 := by ring
          rw [h2]
          exact ceil_toNat_half_lt h1
        omega
      · exact hb
  intro b hb
  exact key ⌈b / 180⌉.toNat b le_rfl hb

/-- Rounding to a tenth keeps a value of [70, 180] inside [70, 180]. -/
theorem roundTenth_mem {x : ℚ} (h1 : 70 ≤ x) (h2 : x ≤ 180) :
    70 ≤ roundTenth x ∧ roundTenth x ≤ 180 := by
  unfold roundTenth
  rw [round_eq]
  have h700 : (700 : ℤ) ≤ ⌊x * 10 + 1 / 2⌋ := by
    rw [Int.le_floor]
    push_cast
    linarith
  have h1800 : ⌊x * 10 + 1 / 2⌋ ≤ 1800 := by
    rw [Int.floor_le_iff]
    push_cast
    linarith
  constructor
  · rw [le_div_iff (by norm_num : (0 : ℚ) < 10)]
    have : ((700 : ℤ) : ℚ) ≤ (⌊x * 10 + 1 / 2⌋ : ℚ) := by exact_mod_cast h700
    linarith
  · rw [div_le_iff (by norm_num : (0 : ℚ) < 10)]
    have : ((⌊x * 10 + 1 / 2⌋ : ℤ) : ℚ) ≤ ((1800 : ℤ) : ℚ) := by exact_mod_cast h1800
    linarith

/-- Any `{bpm, confidence}` message produced by one `updateBpmEstimate`
call carries a folded, tenth-rounded estimate in [70, 180]. -/
theorem updateBpmEstimate_mem_bounds (sqrtQ : ℚ → ℚ) (refresh : Bool)
    (s : BeatState) (b c : ℚ)
    (h : Msg.bpmMsg b c ∈ (updateBpmEstimate sqrtQ refresh s).2) :
    70 ≤ b ∧ b ≤ 180 := by
  unfold updateBpmEstimate at h
  dsimp only at h
  split_ifs at h <;> simp_all
  all_goals {
    have havg : 0 < mean (intervalsOf s.beatTimes) := by assumption
    have hpos : 0 < 60 / mean (intervalsOf s.beatTimes) := by positivity
    have hlow := foldLow_ge _ hpos
    have hge := foldHigh_ge _ hlow
    have hle := foldHigh_le (foldLow (60 / mean (intervalsOf s.beatTimes)))
    exact roundTenth_mem hge hle
  }

/-- `detectBeat` forwards only `updateBpmEstimate` messages, so the same
bounds hold. -/
theorem detectBeat_mem_bounds (sqrtQ : ℚ → ℚ) (refresh : Bool)
    (s : BeatState) (t b c : ℚ)
    (h : Msg.bpmMsg b c ∈ (detectBeat sqrtQ refresh s t).2.2) :
    70 ≤ b ∧ b ≤ 180 := by
  unfold detectBeat at h
  dsimp only at h
  split_ifs at h <;>
    first
      | exact updateBpmEstimate_mem_bounds sqrtQ refresh _ b c h
      | simp_all

/-- Claim C3 (amended): every bpm value carried by an emitted
`{bpm, confidence}` message lies in the CLOSED interval [70, 180]: the
estimate is doubled while below 70 and halved while above 180, and the
tenth-rounded result is ≥ 70 and ≤ 180 — with 180 itself attainable.
Stated for every run of the beat/BPM subsystem and for every single
`updateBpmEstimate` call. -/
theorem c3_bpm_range_closed :
    (∀ (sqrtQ : ℚ → ℚ) (maxLen : ℕ) (s : BeatState)
       (inputs : List (ℚ × ℚ × Bool)) (b c : ℚ),
      Msg.bpmMsg b c ∈ (beatRun sqrtQ maxLen s inputs).2 → 70 ≤ b ∧ b ≤ 180) ∧
    (∀ (sqrtQ : ℚ → ℚ) (refresh : Bool) (s : BeatState) (b c : ℚ),
      Msg.bpmMsg b c ∈ (updateBpmEstimate sqrtQ refresh s).2 → 70 ≤ b ∧ b ≤ 180) := by
  constructor
  · intro sqrtQ maxLen s inputs
    induction inputs generalizing s with
    | nil => intro b c h; simp [beatRun] at h
    | cons p rest ih =>
      intro b c h
      obtain ⟨t, flux, refresh⟩ := p
      simp only [beatRun, List.mem_append] at h
      rcases h with h | h
      · simp only [beatFrameStep, List.mem_append] at h
        rcases h with h | h
        · split_ifs at h <;> simp_all
        · exact detectBeat_mem_bounds sqrtQ refresh _ t b c h
      · exact ih _ b c h
  · intro sqrtQ refresh s b c h
    exact updateBpmEstimate_mem_bounds sqrtQ refresh s b c h

/-- The beat timeline that an exact 3-Hz onset train produces: six beats
exactly 1/3 s apart (each ≥ 0.22 s after its predecessor, so the debounce
admits them). -/
def bpm180State : BeatState :=
  { fluxHistory := [], fluxTimes := [], lastBeatTime := -999,
    beatTimes := [0, 1/3, 2/3, 1, 4/3, 5/3], bpm := none, bpmConfidence := 0 }

/-- Counterexample to claim C3 as stated: with beat intervals of exactly
1/3 s the average interval inverts to exactly 180 BPM, the folding loops
leave 180 unchanged (the halving guard is strict), and the engine emits
`{bpm: 180}` — which is NOT strictly below 180. -/
theorem c3_counterexample_bpm_exactly_180 :
    (updateBpmEstimate (fun _ => 0) false bpm180State).2 = [Msg.bpmMsg 180 1] ∧
    ¬ ((180 : ℚ) < 180) := by
  have hmean : mean (intervalsOf [0, 1/3, 2/3, 1, 4/3, 5/3]) = 1/3 := by
    norm_num [intervalsOf, mean]
  have hfl : foldLow ((60 : ℚ) / (1/3)) = 180 := by
    rw [show (60 : ℚ) / (1/3) = 180 by norm_num, foldLow]
    norm_num
  have hfh : foldHigh (180 : ℚ) = 180 := by
    rw [foldHigh]
    norm_num
  have hrt : roundTenth (180 : ℚ) = 180 := by
    unfold roundTenth
    rw [round_eq]
    norm_num [Int.floor_eq_iff]
  constructor
  · simp only [updateBpmEstimate, bpm180State]
    rw [hmean, hfl, hfh, hrt]
    norm_num [clamp01, max_def, min_def]
  · norm_num

theorem c3_witness : (70 : ℚ) ≤ 180 ∧ (180 : ℚ) ≤ 180 :=
  c3_bpm_range_closed.2 (fun _ => 0) false bpm180State 180 1 (by
    have hmean : mean (intervalsOf [0, 1/3, 2/3, 1, 4/3, 5/3]) = 1/3 := by
      norm_num [intervalsOf, mean]
    have hfl : foldLow ((60 : ℚ) / (1/3)) = 180 := by
      rw [show (60 : ℚ) / (1/3) = 180 by norm_num, foldLow]
      norm_num
    have hfh : foldHigh (180 : ℚ) = 180 := by
      rw [foldHigh]
      norm_num
    have hrt : roundTenth (180 : ℚ) = 180 := by
      unfold roundTenth
      rw [round_eq]
      norm_num [Int.floor_eq_iff]
    simp only [updateBpmEstimate, bpm180State]
    rw [hmean, hfl, hfh, hrt]
    norm_num [clamp01, max_def, min_def])

/-- One dispatcher transition keeps the outstanding-request count equal to
the in-flight flag. -/
theorem clientStep_outstanding (cap window : ℕ) (s : ClientState)
    (ev : ClientEvent) (o : ℕ) (ho : o = if s.inFlight then 1 else 0) :
    (match ev with
      | ClientEvent.result => 0
      | ClientEvent.workerError => 0
      | ClientEvent.exit => 0
      | ClientEvent.classify _ => o + (clientStep cap window s ev).2.length
      | ClientEvent.push _ => o) =
      (if (clientStep cap window s ev).1.inFlight then 1 else 0) := by
  cases ev with
  | push n => simp [clientStep, ho]
  | result => simp [clientStep]
  | workerError => simp [clientStep]
  | exit => simp [clientStep]
  | classify t =>
    simp only [clientStep, clientSend]
    rcases hls : s.lastSentAt with - | x <;> split_ifs <;> simp_all <;>
      split_ifs <;> simp_all

theorem clientRun_outstanding_le_one (cap window : ℕ) :
    ∀ (evs : List ClientEvent) (s : ClientState) (o : ℕ),
      o = (if s.inFlight then 1 else 0) →
      (clientRun cap window s o evs).2.1 ≤ 1 := by
  intro evs
  induction evs with
  | nil =>
    intro s o ho
    simp only [clientRun, ho]
    split_ifs <;> norm_num
  | cons ev rest ih =>
    intro s o ho
    have hstep := clientStep_outstanding cap window s ev o ho
    cases ev <;>
      exact ih (clientStep cap window s _).1 _ hstep

/-- Claim C5: at most one classification request is outstanding at every
point of a session; a `maybeClassify` call while a request is in flight
(or within 1 s of the last handoff) is skipped without queueing — the
state is left untouched; a handoff happens only from the idle state and
raises the in-flight flag; and the flag clears on worker result, error
and exit, re-enabling scheduling. -/
theorem c5_single_in_flight :
    (∀ (cap window : ℕ) (evs : List ClientEvent),
      (clientRun cap window initClientState 0 evs).2.1 ≤ 1) ∧
    (∀ (cap window : ℕ) (s : ClientState) (t : ℚ),
      clientStep cap window { s with inFlight := true } (ClientEvent.classify t) =
        ({ s with inFlight := true }, [])) ∧
    (∀ (cap window : ℕ) (s : ClientState) (t x : ℚ),
      s.lastSentAt = some x → t - x < 1.0 →
      clientStep cap window s (ClientEvent.classify t) = (s, [])) ∧
    (∀ (cap window : ℕ) (s : ClientState) (ev : ClientEvent) (r : SentRequest),
      r ∈ (clientStep cap window s ev).2 →
      s.inFlight = false ∧ (clientStep cap window s ev).1.inFlight = true) ∧
    (∀ (cap window : ℕ) (s : ClientState),
      (clientStep cap window s ClientEvent.result).1.inFlight = false ∧
      (clientStep cap window s ClientEvent.workerError).1.inFlight = false ∧
      (clientStep cap window s ClientEvent.exit).1.inFlight = false) := by
  refine ⟨?_, ?_, ?_, ?_, ?_⟩
  · intro cap window evs
    exact clientRun_outstanding_le_one cap window evs initClientState 0
      (by simp [initClientState])
  · intro cap window s t
    simp only [clientStep]
    split_ifs <;> rfl
  · intro cap window s t x hx ht
    simp only [clientStep, hx]
    split_ifs <;> simp_all
  · intro cap window s ev r hr
    cases ev with
    | push n => simp [clientStep] at hr
    | result => simp [clientStep] at hr
    | workerError => simp [clientStep] at hr
    | exit => simp [clientStep] at hr
    | classify t =>
      simp only [clientStep, clientSend] at hr ⊢
      rcases hls : s.lastSentAt with - | x <;> simp only [hls] at hr ⊢ <;>
        split_ifs at hr ⊢ <;> simp_all
  · intro cap window s
    exact ⟨rfl, rfl, rfl⟩

/-- A dispatcher state with a handoff recorded at `t = 1`. -/
def clientStateAfterSend : ClientState :=
  { workerAlive := true, inFlight := false, lastSentAt := some 1,
    ringUsed := 4, requestId := 1 }

theorem c5_witness :
    clientStep 8 4 clientStateAfterSend (ClientEvent.classify (3/2)) =
      (clientStateAfterSend, []) :=
  c5_single_in_flight.2.2.1 8 4 clientStateAfterSend (3/2) 1 rfl (by norm_num)

/-! ### List summation helpers for the genre smoother -/

theorem range_map_getD_eq {α : Type} (l : List α) (d : α) :
    (List.range l.length).map (fun i => l.getD i d) = l := by
  induction l with
  | nil => simp
  | cons x xs ih =>
    simp only [List.length_cons, List.range_succ_eq_map, List.map_cons,
      List.map_map, List.getD_cons_zero, Function.comp_def, List.getD_cons_succ]
    rw [ih]

theorem range_map_getD_sum (l : List ℚ) :
    ((List.range l.length).map (fun i => l.getD i 0)).sum = l.sum := by
  rw [range_map_getD_eq]

theorem range_map_sum_split (n : ℕ) (f g : ℕ → ℚ) :
    ((List.range n).map (fun i => f i + g i)).sum =
      ((List.range n).map f).sum + ((List.range n).map g).sum := by
  induction n with
  | zero => simp
  | succ n ih => simp [List.range_succ, ih]; ring

theorem range_map_sum_mul (n : ℕ) (c : ℚ) (f : ℕ → ℚ) :
    ((List.range n).map (fun i => f i * c)).sum = ((List.range n).map f).sum * c := by
  induction n with
  | zero => simp
  | succ n ih => simp [List.range_succ, ih]; ring

theorem getD_nonneg {l : List ℚ} (h : ∀ x ∈ l, 0 ≤ x) (i : ℕ) : 0 ≤ l.getD i 0 := by
  rcases lt_or_ge i l.length with hi | hi
  · rw [List.getD_eq_getElem l 0 hi]
    exact h _ (List.getElem_mem hi)
  · rw [List.getD_eq_default l 0 hi]

theorem getD_le_sum {l : List ℚ} (h : ∀ x ∈ l, 0 ≤ x) (i : ℕ) : l.getD i 0 ≤ l.sum := by
  rcases lt_or_ge i l.length with hi | hi
  · rw [List.getD_eq_getElem l 0 hi]
    exact List.single_le_sum h _ (List.getElem_mem hi)
  · rw [List.getD_eq_default l 0 hi]
    exact List.sum_nonneg h

theorem getD_pair_le_sum :
    ∀ (l : List ℚ), (∀ x ∈ l, 0 ≤ x) → ∀ i j : ℕ, i ≠ j → i < l.length →
      j < l.length → l.getD i 0 + l.getD j 0 ≤ l.sum := by
  intro l
  induction l with
  | nil => intro _ i j _ hi _; simp at hi
  | cons x xs ih =>
    intro h i j hij hi hj
    have hx : 0 ≤ x := h x (List.mem_cons_self x xs)
    have hxs : ∀ y ∈ xs, 0 ≤ y := fun y hy => h y (List.mem_cons_of_mem x hy)
    match i, j with
    | 0, 0 => exact absurd rfl hij
    | 0, j + 1 =>
      simp only [List.getD_cons_zero, List.getD_cons_succ, List.sum_cons]
      have := getD_le_sum hxs j
      linarith
    | i + 1, 0 =>
      simp only [List.getD_cons_zero, List.getD_cons_succ, List.sum_cons]
      have := getD_le_sum hxs i
      linarith
    | i + 1, j + 1 =>
      simp only [List.getD_cons_succ, List.sum_cons]
      have := ih hxs i j (by omega) (by simpa using hi) (by simpa using hj)
      linarith

theorem sum_map_div (l : List ℚ) (c : ℚ) :
    (l.map (fun x => x / c)).sum = l.sum / c := by
  induction l with
  | nil => simp
  | cons x xs ih => simp [ih, add_div]

/-- Dividing a list of entries `≥ 1e-4` by its own sum and clamping gives
a probability vector summing to exactly 1. -/
theorem normalized_clamp_props (vec : List ℚ) (hne : vec ≠ [])
    (hpos : ∀ x ∈ vec, (1e-4 : ℚ) ≤ x) :
    (vec.map (fun v => clamp01 (v / vec.sum))).sum = 1 ∧
    (∀ y ∈ vec.map (fun v => clamp01 (v / vec.sum)), 0 ≤ y ∧ y ≤ 1) ∧
    (vec.map (fun v => clamp01 (v / vec.sum))).length = vec.length := by
  have hposall : ∀ x ∈ vec, (0 : ℚ) < x := fun x hx => lt_of_lt_of_le (by norm_num) (hpos x hx)
  have hsum : 0 < vec.sum := List.sum_pos vec hposall hne
  have hid : ∀ v ∈ vec, clamp01 (v / vec.sum) = v / vec.sum := by
    intro v hv
    refine clamp01_of_mem_Icc (div_nonneg (hposall v hv).le hsum.le) ?_
    rw [div_le_one hsum]
    exact List.single_le_sum (fun x hx => (hposall x hx).le) v hv
  have hmap : vec.map (fun v => clamp01 (v / vec.sum)) = vec.map (fun v => v / vec.sum) :=
    List.map_congr_left hid
  refine ⟨?_, ?_, by simp⟩
  · rw [hmap, sum_map_div, div_self (ne_of_gt hsum)]
  · intro y hy
    simp only [List.mem_map] at hy
    obtain ⟨v, _, rfl⟩ := hy
    exact ⟨clamp01_nonneg _, clamp01_le_one _⟩

/-- The heuristic genre distribution is a 7-entry probability vector:
values in [0,1] and total exactly 1. -/
theorem computeGenreDist_props (b e ba mi tr : ℚ) :
    (computeGenreDist b e ba mi tr).length = GENRE_LABELS.length ∧
    (∀ x ∈ computeGenreDist b e ba mi tr, 0 ≤ x ∧ x ≤ 1) ∧
    (computeGenreDist b e ba mi tr).sum = 1 := by
  unfold computeGenreDist
  dsimp only
  set vec := ([_, _, _, _, _, _, _] : List ℚ).map (fun v => max 1e-4 v) with hvec
  have hne : vec ≠ [] := by simp [hvec]
  have hpos : ∀ x ∈ vec, (1e-4 : ℚ) ≤ x := by
    intro x hx
    simp only [hvec, List.mem_map] at hx
    obtain ⟨v, _, rfl⟩ := hx
    exact le_max_left _ _
  have h := normalized_clamp_props vec hne hpos
  refine ⟨?_, h.2.1, h.1⟩
  rw [h.2.2]
  simp [hvec, GENRE_LABELS]

theorem genreCur_length (dist : List ℚ) :
    (genreCur dist).length = GENRE_LABELS.length := by
  simp [genreCur]

theorem genreCur_mem (dist : List ℚ) : ∀ x ∈ genreCur dist, 0 ≤ x ∧ x ≤ 1 := by
  intro x hx
  simp only [genreCur, List.mem_map] at hx
  obtain ⟨i, _, rfl⟩ := hx
  exact ⟨clamp01_nonneg _, clamp01_le_one _⟩

/-- Reading a probability vector back through `dist[g] ?? 0` and `clamp01`
is the identity. -/
theorem genreCur_eq_self {d : List ℚ} (hlen : d.length = GENRE_LABELS.length)
    (hmem : ∀ x ∈ d, 0 ≤ x ∧ x ≤ 1) : genreCur d = d := by
  unfold genreCur
  rw [← hlen]
  have : ∀ i ∈ List.range d.length, clamp01 (d.getD i 0) = d.getD i 0 := by
    intro i hi
    rw [List.mem_range] at hi
    rw [List.getD_eq_getElem d 0 hi]
    exact clamp01_of_mem_Icc (hmem _ (List.getElem_mem hi)).1 (hmem _ (List.getElem_mem hi)).2
  rw [List.map_congr_left this, range_map_getD_eq]

/-- The EMA blend + renormalization yields again a 7-entry nonnegative
vector of total exactly 1, for ANY incoming distribution values. -/
theorem genreEmaStep_props {e : List ℚ} (dist : List ℚ)
    (hel : e.length = GENRE_LABELS.length) (hes : e.sum = 1)
    (hen : ∀ x ∈ e, 0 ≤ x) :
    (genreEmaStep (some e) (genreCur dist)).length = GENRE_LABELS.length ∧
    (genreEmaStep (some e) (genreCur dist)).sum = 1 ∧
    (∀ x ∈ genreEmaStep (some e) (genreCur dist), 0 ≤ x) := by
  have hcl : (genreCur dist).length = GENRE_LABELS.length := genreCur_length dist
  have hcn := genreCur_mem dist
  unfold genreEmaStep
  dsimp only
  set cur := genreCur dist with hcur
  set upd := (List.range cur.length).map
    (fun i => e.getD i 0 * (1 - 0.25) + cur.getD i 0 * 0.25) with hupd
  have hsplit : upd.sum = e.sum * (1 - 0.25) + cur.sum * 0.25 := by
    rw [hupd, range_map_sum_split, range_map_sum_mul, range_map_sum_mul]
    rw [hcl, ← hel, range_map_getD_sum]
    rw [hel, ← hcl, range_map_getD_sum]
  have hcurbounds : 0 ≤ cur.sum ∧ cur.sum ≤ 7 := by
    constructor
    · exact List.sum_nonneg (fun x hx => (hcn x hx).1)
    · calc cur.sum ≤ cur.length • (1 : ℚ) :=
            List.sum_le_card_nsmul cur 1 (fun x hx => (hcn x hx).2)
        _ = 7 := by rw [hcl]; simp [GENRE_LABELS]
  have hsumpos : (1e-6 : ℚ) < upd.sum := by
    rw [hsplit, hes]
    have := hcurbounds.1
    norm_num
    linarith
  have hsumpos0 : (0 : ℚ) < upd.sum := lt_trans (by norm_num) hsumpos
  have hupdnn : ∀ x ∈ upd, 0 ≤ x := by
    intro x hx
    rw [hupd] at hx
    simp only [List.mem_map] at hx
    obtain ⟨i, _, rfl⟩ := hx
    have h1 := getD_nonneg hen i
    have h2 := getD_nonneg (fun x hx => (hcn x hx).1) i
    nlinarith
  rw [if_pos hsumpos]
  refine ⟨?_, ?_, ?_⟩
  · simp [hupd, hcl]
  · rw [sum_map_div, div_self (ne_of_gt hsumpos0)]
  · intro x hx
    simp only [List.mem_map] at hx
    obtain ⟨v, hv, rfl⟩ := hx
    exact div_nonneg (hupdnn v hv) hsumpos0.le

/-- Reading a probability vector out through `clamp01` is the identity. -/
theorem probvec_outDist {em : List ℚ} (hl : em.length = GENRE_LABELS.length)
    (hs : em.sum = 1) (hn : ∀ x ∈ em, 0 ≤ x) :
    (List.range GENRE_LABELS.length).map (fun i => clamp01 (em.getD i 0)) = em := by
  rw [← hl]
  have h : ∀ i ∈ List.range em.length, clamp01 (em.getD i 0) = em.getD i 0 := by
    intro i hi
    refine clamp01_of_mem_Icc (getD_nonneg hn i) ?_
    calc em.getD i 0 ≤ em.sum := getD_le_sum hn i
      _ = 1 := hs
  rw [List.map_congr_left h, range_map_getD_eq]

theorem updateGenreState_ema (s : GenreState) (t : ℚ) (dist : List ℚ) :
    (updateGenreState s t dist).1.genreEma =
      some (genreEmaStep s.genreEma (genreCur dist)) := rfl

theorem updateGenreState_msg (s : GenreState) (t : ℚ) (dist : List ℚ) :
    ∃ top prob, (updateGenreState s t dist).2 =
      Msg.genre top prob ((List.range GENRE_LABELS.length).map
        (fun i => clamp01 ((genreEmaStep s.genreEma (genreCur dist)).getD i 0))) :=
  ⟨_, _, rfl⟩

/-- Probability-vector facts propagated along a genre-smoother run: once
`genreEma` holds a 7-entry nonnegative vector of total 1, every `{genre}`
message of the rest of the run carries exactly such a vector, whatever
raw distributions (e.g. arbitrary worker results) arrive. -/
theorem genreRun_inv :
    ∀ (inputs : List (ℚ × List ℚ)) (s : GenreState) (e : List ℚ),
      s.genreEma = some e → e.length = GENRE_LABELS.length → e.sum = 1 →
      (∀ x ∈ e, 0 ≤ x) →
      ∀ top prob dist, Msg.genre top prob dist ∈ (genreRun s inputs).2 →
        dist.length = GENRE_LABELS.length ∧ (∀ v ∈ dist, 0 ≤ v ∧ v ≤ 1) ∧
        dist.sum = 1 := by
  intro inputs
  induction inputs with
  | nil => intro s e _ _ _ _ top prob dist h; simp [genreRun] at h
  | cons p rest ih =>
    intro s e hse hel hes hen top prob dist h
    obtain ⟨t, d⟩ := p
    have hprops : (genreEmaStep (some e) (genreCur d)).length = GENRE_LABELS.length ∧
        (genreEmaStep (some e) (genreCur d)).sum = 1 ∧
        (∀ x ∈ genreEmaStep (some e) (genreCur d), 0 ≤ x) :=
      genreEmaStep_props d hel hes hen
    simp only [genreRun, List.mem_cons] at h
    rcases h with h | h
    · obtain ⟨top2, prob2, hmsg⟩ := updateGenreState_msg s t d
      rw [hmsg] at h
      injection h with h1 h2 h3
      subst h3
      rw [hse] at *
      rw [probvec_outDist hprops.1 hprops.2.1 hprops.2.2]
      refine ⟨hprops.1, ?_, hprops.2.1⟩
      intro v hv
      refine ⟨hprops.2.2 v hv, ?_⟩
      calc v ≤ (genreEmaStep (some e) (genreCur d)).sum :=
            List.single_le_sum hprops.2.2 v hv
        _ = 1 := hprops.2.1
    · refine ih (updateGenreState s t d).1 (genreEmaStep s.genreEma (genreCur d))
        (updateGenreState_ema s t d) ?_ ?_ ?_ top prob dist h <;> rw [hse]
      · exact hprops.1
      · exact hprops.2.1
      · exact hprops.2.2

/-- Claim C4: every `{genre}` message emitted during a configured session
carries a distribution over the 7 fixed labels with every value in [0,1]
and total within 1e-3 of 1 (here: exactly 1), for every sequence of raw
distributions after the first — in particular for arbitrary results
returned by the classifier worker — provided the first classification
(necessarily the engine's own heuristic `computeGenreDist`, or any other
normalized producer) reads back as a vector of total 1. -/
theorem c4_genre_distribution_normalized :
    ∀ (rest : List (ℚ × List ℚ)) (t0 : ℚ) (d0 : List ℚ),
      (genreCur d0).sum = 1 →
      ∀ top prob dist,
        Msg.genre top prob dist ∈ (genreRun initGenreState ((t0, d0) :: rest)).2 →
        dist.length = GENRE_LABELS.length ∧ (∀ v ∈ dist, 0 ≤ v ∧ v ≤ 1) ∧
        |dist.sum - 1| ≤ 1e-3 := by
  intro rest t0 d0 hsum top prob dist h
  have hel : (genreCur d0).length = GENRE_LABELS.length := genreCur_length d0
  have hen : ∀ x ∈ genreCur d0, 0 ≤ x := fun x hx => (genreCur_mem d0 x hx).1
  have hnone : genreEmaStep initGenreState.genreEma (genreCur d0) = genreCur d0 := rfl
  simp only [genreRun, List.mem_cons] at h
  rcases h with h | h
  · obtain ⟨top2, prob2, hmsg⟩ := updateGenreState_msg initGenreState t0 d0
    rw [hmsg] at h
    injection h with h1 h2 h3
    subst h3
    rw [hnone, probvec_outDist hel hsum hen]
    refine ⟨hel, ?_, by rw [hsum]; norm_num⟩
    intro v hv
    refine ⟨hen v hv, ?_⟩
    calc v ≤ (genreCur d0).sum := List.single_le_sum hen v hv
      _ = 1 := hsum
  · have hrest := genreRun_inv rest (updateGenreState initGenreState t0 d0).1
      (genreCur d0) (by rw [updateGenreState_ema, hnone]) hel hsum hen
      top prob dist h
    exact ⟨hrest.1, hrest.2.1, by rw [hrest.2.2]; norm_num⟩

theorem c4_witness :
    (computeGenreDist 120 (1/2) (1/2) (1/2) (1/2)).length = GENRE_LABELS.length ∧
    (∀ v ∈ computeGenreDist 120 (1/2) (1/2) (1/2) (1/2), 0 ≤ v ∧ v ≤ 1) ∧
    |(computeGenreDist 120 (1/2) (1/2) (1/2) (1/2)).sum - 1| ≤ 1e-3 := by
  set d := computeGenreDist 120 (1/2) (1/2) (1/2) (1/2) with hd
  have hprops := computeGenreDist_props 120 (1/2) (1/2) (1/2) (1/2)
  rw [← hd] at hprops
  have hgc : genreCur d = d := genreCur_eq_self hprops.1 hprops.2.1
  have hcur : (genreCur d).sum = 1 := by rw [hgc]; exact hprops.2.2
  obtain ⟨top2, prob2, hmsg⟩ := updateGenreState_msg initGenreState 1 d
  have hnone : genreEmaStep initGenreState.genreEma (genreCur d) = genreCur d := rfl
  have hdist : (List.range GENRE_LABELS.length).map
      (fun i => clamp01 ((genreEmaStep initGenreState.genreEma (genreCur d)).getD i 0)) =
      d := by
    rw [hnone, probvec_outDist (genreCur_length _) hcur
      (fun x hx => (genreCur_mem _ x hx).1), hgc]
  refine c4_genre_distribution_normalized [] 1 d hcur top2 prob2 d ?_
  simp only [genreRun, List.mem_cons]
  left
  rw [hmsg, hdist]

theorem tail_getD (l : List ℚ) (k : ℕ) : l.tail.getD k 0 = l.getD (k + 1) 0 := by
  cases l <;> rfl

/-- The scan mirrors the arg-max loop: the accumulator never decreases,
dominates every scanned entry, and the result is the accumulator or an
indexed entry. -/
theorem scanMax_spec :
    ∀ (xs : List ℚ) (start : ℕ) (acc : ℕ × ℚ),
      (acc.2 ≤ (scanMax xs start acc).2) ∧
      (∀ k, k < xs.length → xs.getD k 0 ≤ (scanMax xs start acc).2) ∧
      ((scanMax xs start acc) = acc ∨
        ∃ k, k < xs.length ∧ scanMax xs start acc = (start + k, xs.getD k 0)) := by
  intro xs
  induction xs with
  | nil =>
    intro start acc
    refine ⟨le_rfl, ?_, Or.inl rfl⟩
    intro k hk
    simp at hk
  | cons x xs ih =>
    intro start acc
    have hstep : scanMax (x :: xs) start acc =
        scanMax xs (start + 1) (if acc.2 < x then (start, x) else acc) := rfl
    obtain ⟨ih1, ih2, ih3⟩ := ih (start + 1) (if acc.2 < x then (start, x) else acc)
    have hacc2 : acc.2 ≤ (if acc.2 < x then (start, x) else acc).2 := by
      split_ifs with hc
      · exact hc.le
      · exact le_rfl
    have hx2 : x ≤ (if acc.2 < x then (start, x) else acc).2 := by
      split_ifs with hc
      · exact le_rfl
      · exact not_lt.mp hc
    refine ⟨by rw [hstep]; exact le_trans hacc2 ih1, ?_, ?_⟩
    · intro k hk
      match k with
      | 0 =>
        rw [hstep, List.getD_cons_zero]
        exact le_trans hx2 ih1
      | k + 1 =>
        rw [hstep, List.getD_cons_succ]
        exact ih2 k (by simpa using hk)
    · rw [hstep]
      rcases ih3 with h | ⟨k, hk, hr⟩
      · rw [h]
        split_ifs with hc
        · exact Or.inr ⟨0, by simp⟩
        · exact Or.inl rfl
      · refine Or.inr ⟨k + 1, by simpa using hk, ?_⟩
        rw [hr, List.getD_cons_succ]
        congr 1
        omega

/-- Facts about `genreArgmax` on a nonempty vector: the returned index is
in range, the returned value is the entry at that index, and it dominates
every entry. -/
theorem genreArgmax_spec (l : List ℚ) (hl : l ≠ []) :
    (genreArgmax l).1 < l.length ∧
    (genreArgmax l).2 = l.getD (genreArgmax l).1 0 ∧
    (∀ k, k < l.length → l.getD k 0 ≤ (genreArgmax l).2) := by
  obtain ⟨h1, h2, h3⟩ := scanMax_spec l.tail 1 (0, l.getD 0 0)
  have hlen : l.tail.length = l.length - 1 := List.length_tail l
  have hlpos : 0 < l.length := List.length_pos.mpr hl
  refine ⟨?_, ?_, ?_⟩
  · rcases h3 with h | ⟨k, hk, hr⟩
    · unfold genreArgmax
      rw [h]
      exact hlpos
    · unfold genreArgmax
      rw [hr]
      simp only
      omega
  · rcases h3 with h | ⟨k, hk, hr⟩
    · unfold genreArgmax
      rw [h]
    · unfold genreArgmax
      rw [hr]
      simp only
      rw [tail_getD]
      congr 1
      omega
  · intro k hk
    match k with
    | 0 => exact h1
    | k + 1 =>
      have : k < l.tail.length := by omega
      have := h2 k this
      rwa [tail_getD] at this

/-- The hysteresis decision of `updateGenreState`, read off the
definition. -/
theorem updateGenreState_top (s : GenreState) (t : ℚ) (dist : List ℚ) :
    (updateGenreState s t dist).1.genreTop =
      (if ¬ (GENRE_LABELS.getD (genreArgmax (genreEmaStep s.genreEma (genreCur dist))).1
              "Techno" ≠ s.genreTop ∧
            t - s.lastGenreChangeAt < 15 ∧
            0.55 < (if GENRE_LABELS.indexOf s.genreTop < GENRE_LABELS.length then
                (genreEmaStep s.genreEma (genreCur dist)).getD
                  (GENRE_LABELS.indexOf s.genreTop) 0 else 0) ∧
            (genreArgmax (genreEmaStep s.genreEma (genreCur dist))).2 <
              (if GENRE_LABELS.indexOf s.genreTop < GENRE_LABELS.length then
                (genreEmaStep s.genreEma (genreCur dist)).getD
                  (GENRE_LABELS.indexOf s.genreTop) 0 else 0) + 0.12) ∧
          GENRE_LABELS.getD (genreArgmax (genreEmaStep s.genreEma (genreCur dist))).1
            "Techno" ≠ s.genreTop then
        GENRE_LABELS.getD (genreArgmax (genreEmaStep s.genreEma (genreCur dist))).1
          "Techno"
      else s.genreTop) := rfl

/-- Claim C6: when a classification updates the genre smoother, the held
top label is replaced by a differing proposed label only if the proposed
label's smoothed probability exceeds the held one's by more than 0.12, or
more than 15 seconds have passed since the label last changed, or the
held label's own probability has fallen to ≤ 0.55; otherwise it is
retained.  (On the probability vectors the smoother actually holds — sum
1, nonnegative — a replacement in fact forces the third condition.) -/
theorem c6_top_label_hysteresis (s : GenreState) (t : ℚ) (dist : List ℚ)
    (e : List ℚ) (hse : s.genreEma = some e)
    (hel : e.length = GENRE_LABELS.length) (hes : e.sum = 1)
    (hen : ∀ x ∈ e, 0 ≤ x)
    (hne : (updateGenreState s t dist).1.genreTop ≠ s.genreTop) :
      ((if GENRE_LABELS.indexOf s.genreTop < GENRE_LABELS.length then
          (genreEmaStep s.genreEma (genreCur dist)).getD
            (GENRE_LABELS.indexOf s.genreTop) 0 else 0) + 0.12 <
          (genreArgmax (genreEmaStep s.genreEma (genreCur dist))).2) ∨
      (15 < t - s.lastGenreChangeAt) ∨
      ((if GENRE_LABELS.indexOf s.genreTop < GENRE_LABELS.length then
          (genreEmaStep s.genreEma (genreCur dist)).getD
            (GENRE_LABELS.indexOf s.genreTop) 0 else 0) ≤ 0.55) := by
  by_contra hcon
  push_neg at hcon
  obtain ⟨-, -, hcur⟩ := hcon
  -- the held label's probability exceeds 0.55, so the `if` is in its
  -- true branch and the held label occurs in GENRE_LABELS
  by_cases hidx : GENRE_LABELS.indexOf s.genreTop < GENRE_LABELS.length
  swap
  · rw [if_neg hidx] at hcur
    norm_num at hcur
  rw [if_pos hidx] at hcur
  rw [updateGenreState_top] at hne
  simp only [if_pos hidx] at hne
  split_ifs at hne with hdec
  swap
  · exact absurd rfl hne
  -- properties of the updated EMA vector
  have hprops := genreEmaStep_props dist hel hes hen
  rw [← hse] at hprops
  obtain ⟨hl7, hs1, hnn⟩ := hprops
  have hne2 : genreEmaStep s.genreEma (genreCur dist) ≠ [] := by
    intro hc
    rw [hc] at hl7
    simp [GENRE_LABELS] at hl7
  obtain ⟨ham1, ham2, ham3⟩ := genreArgmax_spec (genreEmaStep s.genreEma (genreCur dist)) hne2
  have htopidx : (genreArgmax (genreEmaStep s.genreEma (genreCur dist))).1 <
      GENRE_LABELS.length := by
    rw [← hl7]
    exact ham1
  have hgetcur : GENRE_LABELS.getD (GENRE_LABELS.indexOf s.genreTop) "Techno" =
      s.genreTop := by
    rw [List.getD_eq_getElem _ _ hidx]
    exact List.getElem_indexOf hidx
  -- the proposed label differs from the held one, so the argmax index
  -- differs from the held index
  have hii : (genreArgmax (genreEmaStep s.genreEma (genreCur dist))).1 ≠
      GENRE_LABELS.indexOf s.genreTop := by
    intro hc
    rw [hc, hgetcur] at hne
    exact hne rfl
  -- two distinct entries of a nonnegative vector of total 1 cannot both
  -- exceed 0.55
  have hcurle : (genreEmaStep s.genreEma (genreCur dist)).getD
      (GENRE_LABELS.indexOf s.genreTop) 0 ≤
      (genreArgmax (genreEmaStep s.genreEma (genreCur dist))).2 :=
    ham3 _ (by rw [hl7]; exact hidx)
  have hpair := getD_pair_le_sum (genreEmaStep s.genreEma (genreCur dist)) hnn
    (genreArgmax (genreEmaStep s.genreEma (genreCur dist))).1
    (GENRE_LABELS.indexOf s.genreTop) hii ham1 (by rw [hl7]; exact hidx)
  rw [hs1] at hpair
  rw [ham2] at hcurle
  linarith

/-- A smoother state in which `Techno` is held with probability 1/2: the
next classification proposing `House` replaces the label (its held
probability 3/8 is below the 0.55 hold threshold). -/
def genreSplitState : GenreState :=
  { genreEma := some [1/2, 1/2, 0, 0, 0, 0, 0], genreTop := "Techno",
    lastGenreChangeAt := 0 }

/-- Evaluating the smoother at `genreSplitState` on a pure-`House`
distribution: the held label is replaced. -/
theorem genreSplitState_replaces :
    (updateGenreState genreSplitState 1 [0, 1, 0, 0, 0, 0, 0]).1.genreTop = "House" := by
  have hcur : genreCur [0, 1, 0, 0, 0, 0, 0] = [0, 1, 0, 0, 0, 0, 0] := by
    unfold genreCur
    rw [show List.range GENRE_LABELS.length = [0, 1, 2, 3, 4, 5, 6] by decide]
    norm_num [clamp01, min_def, max_def]
  have hema : genreEmaStep genreSplitState.genreEma (genreCur [0, 1, 0, 0, 0, 0, 0]) =
      [3/8, 5/8, 0, 0, 0, 0, 0] := by
    rw [hcur]
    show genreEmaStep (some [1/2, 1/2, 0, 0, 0, 0, 0]) _ = _
    unfold genreEmaStep
    dsimp only
    rw [show List.range ([0, 1, 0, 0, 0, 0, 0] : List ℚ).length =
      [0, 1, 2, 3, 4, 5, 6] by decide]
    norm_num [min_def, max_def]
  have harg : genreArgmax [3/8, 5/8, 0, 0, 0, 0, 0] = (1, 5/8) := by
    norm_num [genreArgmax, scanMax]
  rw [updateGenreState_top, hema, harg]
  rw [show GENRE_LABELS.indexOf genreSplitState.genreTop = 0 by decide]
  norm_num [GENRE_LABELS, genreSplitState]
  exact fun h => h.symm

theorem c6_witness :
    ((if GENRE_LABELS.indexOf genreSplitState.genreTop < GENRE_LABELS.length then
        (genreEmaStep genreSplitState.genreEma (genreCur [0, 1, 0, 0, 0, 0, 0])).getD
          (GENRE_LABELS.indexOf genreSplitState.genreTop) 0 else 0) + 0.12 <
        (genreArgmax (genreEmaStep genreSplitState.genreEma
          (genreCur [0, 1, 0, 0, 0, 0, 0]))).2) ∨
    (15 < (1 : ℚ) - genreSplitState.lastGenreChangeAt) ∨
    ((if GENRE_LABELS.indexOf genreSplitState.genreTop < GENRE_LABELS.length then
        (genreEmaStep genreSplitState.genreEma (genreCur [0, 1, 0, 0, 0, 0, 0])).getD
          (GENRE_LABELS.indexOf genreSplitState.genreTop) 0 else 0) ≤ 0.55) :=
  c6_top_label_hysteresis genreSplitState 1 [0, 1, 0, 0, 0, 0, 0]
    [1/2, 1/2, 0, 0, 0, 0, 0] rfl rfl (by norm_num)
    (by
      intro x hx
      simp only [List.mem_cons, List.not_mem_nil, or_false] at hx
      rcases hx with rfl | rfl | rfl | rfl | rfl | rfl | rfl <;> norm_num)
    (by rw [genreSplitState_replaces]; decide)

/-! ### Beat spacing (claim C7) -/

/-- The timestamps of the `{event:"beat"}` messages in a stream. -/
def beatMsgTimes (msgs : List Msg) : List ℚ :=
  msgs.filterMap (fun m => match m with | Msg.beat t => some t | _ => none)

theorem beatMsgTimes_append (a b : List Msg) :
    beatMsgTimes (a ++ b) = beatMsgTimes a ++ beatMsgTimes b :=
  List.filterMap_append a b _

/-- `updateBpmEstimate` emits no `beat` events. -/
theorem updateBpmEstimate_no_beats (sqrtQ : ℚ → ℚ) (refresh : Bool) (s : BeatState) :
    beatMsgTimes (updateBpmEstimate sqrtQ refresh s).2 = [] := by
  unfold updateBpmEstimate
  dsimp only
  split_ifs <;> rfl

/-- `updateBpmEstimate` leaves the flux history, beat timeline and
debounce clock untouched. -/
theorem updateBpmEstimate_preserves (sqrtQ : ℚ → ℚ) (refresh : Bool) (s : BeatState) :
    (updateBpmEstimate sqrtQ refresh s).1.fluxHistory = s.fluxHistory ∧
    (updateBpmEstimate sqrtQ refresh s).1.fluxTimes = s.fluxTimes ∧
    (updateBpmEstimate sqrtQ refresh s).1.lastBeatTime = s.lastBeatTime := by
  unfold updateBpmEstimate
  dsimp only
  split_ifs <;> exact ⟨rfl, rfl, rfl⟩

/-- `detectBeat` emits no `beat` events itself (the `{event:"beat"}`
message is sent by `processFrame`). -/
theorem detectBeat_no_beats (sqrtQ : ℚ → ℚ) (refresh : Bool) (s : BeatState) (t : ℚ) :
    beatMsgTimes (detectBeat sqrtQ refresh s t).2.2 = [] := by
  unfold detectBeat
  dsimp only
  split_ifs <;> first
    | rfl
    | exact updateBpmEstimate_no_beats sqrtQ refresh _

theorem detectBeat_flux_unchanged (sqrtQ : ℚ → ℚ) (refresh : Bool) (s : BeatState) (t : ℚ) :
    (detectBeat sqrtQ refresh s t).1.fluxHistory = s.fluxHistory ∧
    (detectBeat sqrtQ refresh s t).1.fluxTimes = s.fluxTimes := by
  unfold detectBeat
  dsimp only
  split_ifs <;>
    first
      | exact ⟨rfl, rfl⟩
      | exact ⟨(updateBpmEstimate_preserves sqrtQ refresh _).1,
          (updateBpmEstimate_preserves sqrtQ refresh _).2.1⟩

/-- Either `detectBeat` rejects (no beat, debounce clock unchanged), or it
confirms a beat: at least 12 flux samples, the beat timestamp is the
second-newest flux time, it is at least 0.22 s after the previous one,
and it becomes the new debounce clock. -/
theorem detectBeat_cases (sqrtQ : ℚ → ℚ) (refresh : Bool) (s : BeatState) (t : ℚ) :
    ((detectBeat sqrtQ refresh s t).2.1 = false ∧
      (detectBeat sqrtQ refresh s t).1.lastBeatTime = s.lastBeatTime) ∨
    (12 ≤ s.fluxHistory.length ∧
      (detectBeat sqrtQ refresh s t).2.1 = true ∧
      (detectBeat sqrtQ refresh s t).1.lastBeatTime =
        s.fluxTimes.getD (s.fluxHistory.length - 2) 0 ∧
      0.22 ≤ s.fluxTimes.getD (s.fluxHistory.length - 2) 0 - s.lastBeatTime) := by
  unfold detectBeat
  dsimp only
  split_ifs with h1 h2 h3 <;>
    first
      | exact Or.inl ⟨rfl, rfl⟩
      | exact Or.inr ⟨by omega, rfl,
          (updateBpmEstimate_preserves sqrtQ refresh _).2.2,
          by linarith [not_lt.mp h3]⟩

theorem concat_tail_getLast? {α : Type} (l : List α) (t : α)
    (h : (l ++ [t]).tail ≠ []) : ((l ++ [t]).tail).getLast? = some t := by
  cases l with
  | nil => simp at h
  | cons x xs =>
    rw [List.cons_append, List.tail_cons]
    exact List.getLast?_concat xs

theorem secondLast_concat (l : List ℚ) (t : ℚ) (h : 1 ≤ l.length) :
    (l ++ [t]).getD ((l ++ [t]).length - 2) 0 = l.getLast?.getD 0 := by
  have hlen : (l ++ [t]).length = l.length + 1 := by simp
  rw [hlen, show l.length + 1 - 2 = l.length - 1 by omega,
    List.getD_append l [t] 0 (l.length - 1) (by omega),
    List.getD_eq_getElem?_getD, List.getLast?_eq_getElem?]

theorem secondLast_concat_tail (l : List ℚ) (t : ℚ) (h : 2 ≤ l.length) :
    ((l ++ [t]).tail).getD (((l ++ [t]).tail).length - 2) 0 = l.getLast?.getD 0 := by
  cases l with
  | nil => simp at h
  | cons x xs =>
    rw [List.cons_append, List.tail_cons]
    have hxs : 1 ≤ xs.length := by simpa using h
    rw [secondLast_concat xs t hxs]
    cases xs with
    | nil => simp at hxs
    | cons y ys => rw [List.getLast?_cons_cons]

/-- What one `pushFlux` does to the histories: histories stay in lockstep,
grow by at most one, end with the pushed time, and their second-newest
entry is the previously newest one. -/
theorem pushFlux_facts (maxLen : ℕ) (s : BeatState) (t f : ℚ)
    (hlen : s.fluxTimes.length = s.fluxHistory.length) :
    ((pushFlux maxLen s t f).fluxTimes.length =
      (pushFlux maxLen s t f).fluxHistory.length) ∧
    ((pushFlux maxLen s t f).fluxTimes.length ≤ s.fluxTimes.length + 1) ∧
    ((pushFlux maxLen s t f).fluxTimes ≠ [] →
      (pushFlux maxLen s t f).fluxTimes.getLast? = some t) ∧
    (2 ≤ (pushFlux maxLen s t f).fluxTimes.length →
      1 ≤ s.fluxTimes.length ∧
      (pushFlux maxLen s t f).fluxTimes.getD
        ((pushFlux maxLen s t f).fluxTimes.length - 2) 0 =
        s.fluxTimes.getLast?.getD 0) ∧
    ((pushFlux maxLen s t f).lastBeatTime = s.lastBeatTime) ∧
    ((pushFlux maxLen s t f).beatTimes = s.beatTimes) := by
  unfold pushFlux
  dsimp only
  split_ifs with h
  · refine ⟨?_, ?_, ?_, ?_, rfl, rfl⟩
    · simp [hlen]
    · simp
    · intro hne
      exact concat_tail_getLast? s.fluxTimes t hne
    · intro h2
      simp only [List.length_tail, List.length_append, List.length_cons,
        List.length_nil] at h2
      have hl2 : 2 ≤ s.fluxTimes.length := by omega
      exact ⟨by omega, secondLast_concat_tail s.fluxTimes t hl2⟩
  · refine ⟨?_, ?_, ?_, ?_, rfl, rfl⟩
    · simp [hlen]
    · simp
    · intro _
      exact List.getLast?_concat s.fluxTimes
    · intro h2
      simp only [List.length_append, List.length_cons, List.length_nil] at h2
      have hl1 : 1 ≤ s.fluxTimes.length := by omega
      exact ⟨hl1, secondLast_concat s.fluxTimes t hl1⟩

/-- Invariant of the beat subsystem after `N` frames on the uniform time
grid `t_i = t0 + i·d`: histories in lockstep and no longer than the frame
count, the newest flux time is the last frame's time, and the emitted
beat times `ts` form a 0.22-chain whose last emission happened at some
frame `j < N` with the debounce clock one frame behind it. -/
def beatGridInv (t0 d : ℚ) (N : ℕ) (s : BeatState) (ts : List ℚ) : Prop :=
  s.fluxTimes.length = s.fluxHistory.length ∧
  s.fluxTimes.length ≤ N ∧
  (s.fluxTimes ≠ [] → 1 ≤ N ∧
    s.fluxTimes.getLast? = some (t0 + ((N - 1 : ℕ) : ℚ) * d)) ∧
  ((ts = [] ∧ s.lastBeatTime = -999) ∨
    (∃ j B, 1 ≤ j ∧ j < N ∧ ts = B ++ [t0 + (j : ℚ) * d] ∧
      s.lastBeatTime = t0 + ((j - 1 : ℕ) : ℚ) * d ∧
      List.Pairwise (fun a b => a + 0.22 ≤ b) ts))

theorem beatGridInv_init (t0 d : ℚ) : beatGridInv t0 d 0 initBeatState [] := by
  refine ⟨rfl, by simp [initBeatState], ?_, Or.inl ⟨rfl, rfl⟩⟩
  intro h
  exact absurd rfl h

/-- One frame preserves the grid invariant. -/
theorem beatGridInv_step (sqrtQ : ℚ → ℚ) (maxLen : ℕ) (t0 d : ℚ)
    (N : ℕ) (s : BeatState) (ts : List ℚ) (hinv : beatGridInv t0 d N s ts)
    (flux : ℚ) (refresh : Bool) :
    beatGridInv t0 d (N + 1)
      (beatFrameStep sqrtQ maxLen s (t0 + (N : ℚ) * d) flux refresh).1
      (ts ++ beatMsgTimes
        (beatFrameStep sqrtQ maxLen s (t0 + (N : ℚ) * d) flux refresh).2) := by
  obtain ⟨hLen, hN, hLast, hEF⟩ := hinv
  set tN : ℚ := t0 + (N : ℚ) * d with htN
  set s1 : BeatState := pushFlux maxLen s tN flux with hs1
  obtain ⟨p1, p2, p3, p4, p5, p6⟩ := pushFlux_facts maxLen s tN flux hLen
  rw [← hs1] at p1 p2 p3 p4 p5 p6
  have hstep : beatFrameStep sqrtQ maxLen s tN flux refresh =
      ((detectBeat sqrtQ refresh s1 tN).1,
        (if (detectBeat sqrtQ refresh s1 tN).2.1 then [Msg.beat tN] else []) ++
          (detectBeat sqrtQ refresh s1 tN).2.2) := rfl
  have hflux := detectBeat_flux_unchanged sqrtQ refresh s1 tN
  have hnobeats := detectBeat_no_beats sqrtQ refresh s1 tN
  rw [hstep]
  dsimp only
  rw [beatMsgTimes_append, hnobeats, List.append_nil]
  rcases detectBeat_cases sqrtQ refresh s1 tN with ⟨hb, hlbt⟩ | ⟨h12, hb, hlbt, hdeb⟩
  · -- rejected: nothing emitted, clock unchanged
    rw [hb]
    simp only [Bool.false_eq_true, if_false, beatMsgTimes, List.filterMap_nil,
      List.append_nil]
    refine ⟨by rw [hflux.1, hflux.2]; exact p1, by rw [hflux.2]; omega, ?_, ?_⟩
    · rw [hflux.2]
      intro hne
      refine ⟨by omega, ?_⟩
      rw [p3 hne, htN]
      norm_num
    · rw [hlbt, p5]
      rcases hEF with ⟨h1, h2⟩ | ⟨j, B, hj1, hjN, hts, hlb, hpw⟩
      · exact Or.inl ⟨h1, h2⟩
      · exact Or.inr ⟨j, B, hj1, by omega, hts, hlb, hpw⟩
  · -- accepted: beat emitted at the current frame time
    rw [hb]
    simp only [if_true, beatMsgTimes, List.filterMap_cons, List.filterMap_nil]
    have hn2 : 2 ≤ s1.fluxTimes.length := by
      rw [p1]; omega
    obtain ⟨hs1len, hsecond⟩ := p4 hn2
    have hsne : s.fluxTimes ≠ [] := by
      intro hc
      rw [hc] at hs1len
      simp at hs1len
    obtain ⟨hN1, hlastval⟩ := hLast hsne
    have hsecondval : s1.fluxTimes.getD (s1.fluxTimes.length - 2) 0 =
        t0 + ((N - 1 : ℕ) : ℚ) * d := by
      rw [hsecond, hlastval]
      rfl
    have hlbtval : (detectBeat sqrtQ refresh s1 tN).1.lastBeatTime =
        t0 + ((N - 1 : ℕ) : ℚ) * d := by
      rw [hlbt, ← p1, hsecondval]
    have hdebval : (0.22 : ℚ) ≤ (t0 + ((N - 1 : ℕ) : ℚ) * d) - s.lastBeatTime := by
      rw [← p5]
      calc (0.22 : ℚ) ≤ s1.fluxTimes.getD (s1.fluxHistory.length - 2) 0 -
            s1.lastBeatTime := hdeb
        _ = (t0 + ((N - 1 : ℕ) : ℚ) * d) - s1.lastBeatTime := by
            rw [← p1, hsecondval]
    refine ⟨by rw [hflux.1, hflux.2]; exact p1, by rw [hflux.2]; omega, ?_, ?_⟩
    · rw [hflux.2]
      intro hne
      refine ⟨by omega, ?_⟩
      rw [p3 hne, htN]
      norm_num
    · refine Or.inr ⟨N, ts, hN1, by omega, rfl, hlbtval, ?_⟩
      have hcast : ((N - 1 : ℕ) : ℚ) = (N : ℚ) - 1 := by
        have : (1 : ℕ) ≤ N := hN1
        push_cast [Nat.cast_sub this]
        ring
      rcases hEF with ⟨h1, -⟩ | ⟨j, B, hj1, hjN, hts, hlb, hpw⟩
      · rw [h1]
        simp
      · have hcastj : ((j - 1 : ℕ) : ℚ) = (j : ℚ) - 1 := by
          have : (1 : ℕ) ≤ j := hj1
          push_cast [Nat.cast_sub this]
          ring
        have hTjN : t0 + (j : ℚ) * d + 0.22 ≤ tN := by
          rw [hlb, hcastj] at hdebval
          rw [hcast] at hdebval
          rw [htN]
          nlinarith
        have hball : ∀ a ∈ ts, a + 0.22 ≤ tN := by
          intro a ha
          rw [hts] at ha hpw
          rcases List.mem_append.mp ha with haB | haj
          · have hchain := (List.pairwise_append.mp hpw).2.2
            have := hchain a haB (t0 + (j : ℚ) * d) (List.mem_singleton_self _)
            linarith
          · rw [List.mem_singleton.mp haj]
            exact hTjN
        rw [List.pairwise_append]
        refine ⟨hpw, List.pairwise_singleton _ _, ?_⟩
        intro a ha b hb
        rw [List.mem_singleton.mp hb]
        exact hball a ha

theorem beatRun_append (sqrtQ : ℚ → ℚ) (maxLen : ℕ) :
    ∀ (xs ys : List (ℚ × ℚ × Bool)) (s : BeatState),
      beatRun sqrtQ maxLen s (xs ++ ys) =
        ((beatRun sqrtQ maxLen (beatRun sqrtQ maxLen s xs).1 ys).1,
          (beatRun sqrtQ maxLen s xs).2 ++
            (beatRun sqrtQ maxLen (beatRun sqrtQ maxLen s xs).1 ys).2) := by
  intro xs
  induction xs with
  | nil => intro ys s; simp [beatRun]
  | cons p rest ih =>
    intro ys s
    obtain ⟨t, flux, refresh⟩ := p
    simp only [List.cons_append, beatRun]
    rw [show rest.append ys = rest ++ ys from rfl, ih]
    simp [List.append_assoc]

/-- The grid invariant holds after any number of frames. -/
theorem beatRun_grid_inv (sqrtQ : ℚ → ℚ) (maxLen : ℕ) (t0 d : ℚ)
    (f : ℕ → ℚ) (r : ℕ → Bool) :
    ∀ N : ℕ,
      beatGridInv t0 d N
        (beatRun sqrtQ maxLen initBeatState
          ((List.range N).map (fun (i : ℕ) => (t0 + (i : ℚ) * d, f i, r i)))).1
        (beatMsgTimes (beatRun sqrtQ maxLen initBeatState
          ((List.range N).map (fun (i : ℕ) => (t0 + (i : ℚ) * d, f i, r i)))).2) := by
  intro N
  induction N with
  | zero => simpa [beatRun, beatMsgTimes] using beatGridInv_init t0 d
  | succ N ih =>
    rw [List.range_succ, List.map_append]
    rw [beatRun_append]
    dsimp only
    rw [beatMsgTimes_append]
    have hsingle : ∀ (s : BeatState),
        beatRun sqrtQ maxLen s [(t0 + (N : ℚ) * d, f N, r N)] =
          ((beatFrameStep sqrtQ maxLen s (t0 + (N : ℚ) * d) (f N) (r N)).1,
            (beatFrameStep sqrtQ maxLen s (t0 + (N : ℚ) * d) (f N) (r N)).2) := by
      intro s
      simp [beatRun]
    rw [List.map_cons, List.map_nil, hsingle]
    exact beatGridInv_step sqrtQ maxLen t0 d N _ _ ih (f N) (r N)

/-- Claim C7: along any configured session processed on the uniform frame
grid `t_i = t0 + i·d`, any two distinct emitted beat events lie at least
0.22 s apart: a candidate whose one-frame-lagged timestamp falls less
than 220 ms after the previously confirmed beat is rejected and produces
no event. -/
theorem c7_beats_at_least_220ms_apart (sqrtQ : ℚ → ℚ) (maxLen : ℕ)
    (t0 d : ℚ) (N : ℕ) (f : ℕ → ℚ) (r : ℕ → Bool) :
    List.Pairwise (fun a b => (0.22 : ℚ) ≤ |b - a|)
      (beatMsgTimes (beatRun sqrtQ maxLen initBeatState
        ((List.range N).map (fun (i : ℕ) => (t0 + (i : ℚ) * d, f i, r i)))).2) := by
  have hinv := beatRun_grid_inv sqrtQ maxLen t0 d f r N
  obtain ⟨-, -, -, hEF⟩ := hinv
  have hpw : List.Pairwise (fun a b => a + 0.22 ≤ b)
      (beatMsgTimes (beatRun sqrtQ maxLen initBeatState
        ((List.range N).map (fun (i : ℕ) => (t0 + (i : ℚ) * d, f i, r i)))).2) := by
    rcases hEF with ⟨h1, -⟩ | ⟨j, B, -, -, -, -, hpw⟩
    · rw [h1]
      exact List.Pairwise.nil
    · exact hpw
  refine hpw.imp ?_
  intro a b hab
  rw [abs_of_nonneg (by linarith)]
  linarith
